import Mathlib

/-!
# Verification of the tiled GEMM kernels in `src/cuda/src/cuda_gemm_kernel.cu`

This file is a shallow embedding of the two CUDA GEMM kernels of the
repository, `gemm_v06_vectorized` (register-blocked outer-product kernel) and
`gemm_v07_vectorized` (matrix-unit / WMMA kernel), together with their launch
functions `launch_gemm_kernel_v06_vectorized` and
`launch_gemm_kernel_v07_vectorized`.

Modelling conventions:

* The element type `T` of the C++ template (instantiated at `float`, `double`
  and `__half` by the explicit instantiations at the bottom of the file) is
  modelled by a type `R` carrying `Mul`, `Add` and `Zero`.  Theorems about the
  numerical result are stated over a commutative ring (exact arithmetic; the
  spec's "within the tolerance of the numeric type" is modelled as exact
  equality of the ideal real-number data flow).  The absorption behaviour of
  IEEE non-finite values is modelled separately by the `NanInt` type below.
* The quantity `NUM_VECTOR_UNITS = sizeof(int4) / sizeof(T)` depends on the
  element type (2 for `double`, 4 for `float`, 8 for `__half`), so it is kept
  as an explicit parameter `nvu` with `nvu ∣ 8`, `0 < nvu`.
* All other template parameters are the compile-time constants chosen by the
  launch functions; they are defined below with the defining expressions of
  the source.
* The output matrix `C` is modelled as a flat memory `ℕ → R` together with a
  set (as `ℕ → Bool`) of the offsets the kernel has accessed.  Both kernels
  read and store exactly the same `C` offsets (the `int4` load-modify-store of
  v06, and the `load_matrix_sync`/`store_matrix_sync` pair of v07), so a
  single `touched` set records the offsets that are both read and written
  during write-back.
* The input matrices `A` and `B` are modelled as functions `ℕ → ℕ → R` giving
  the element at (row, column); their flat addressing through `lda`/`ldb` is
  internal to the shared-memory staging loader
  `load_data_to_shared_memory_transposed_vectorized`, which is declared in
  `cuda_gemm_utils.cuh` and is not part of `src/`, hence it is modelled from
  the spec (§4.1) as the zero-padded sub-tile functions below.
* A CUDA grid is a set of independent blocks of threads whose memory writes
  are unordered.  The model executes the grid deterministically: blocks in
  (blockIdx.y, blockIdx.x) order, threads of a block in thread-linear order,
  and each thread's write-back loop in program order; each vectorized
  load-modify-store reads the current memory.  Whenever the offsets written
  by the grid are pairwise disjoint (which the main lemmas establish on the
  stated domains) this coincides with every interleaving of the real machine.
-/

/-- `static_cast<unsigned int>` / C `unsigned int` arithmetic: truncation to
32 bits, used by both launch functions when computing the grid dimensions. -/
def u32 (x : ℕ) : ℕ := x % 4294967296

/-! ## Compile-time tile-size constants of the launch functions

`launch_gemm_kernel_v06_vectorized` (lines 516-543) and
`launch_gemm_kernel_v07_vectorized` (lines 198-220) choose the same block and
warp tile sizes; the derived counts are written with the defining expressions
of the source. -/

def BLOCK_TILE_SIZE_X : ℕ := 128
def BLOCK_TILE_SIZE_Y : ℕ := 128
def BLOCK_TILE_SIZE_K : ℕ := 16
def WARP_TILE_SIZE_X : ℕ := 32
def WARP_TILE_SIZE_Y : ℕ := 64
def THREAD_TILE_SIZE_X : ℕ := 8
def THREAD_TILE_SIZE_Y : ℕ := 8
def NUM_THREADS_PER_WARP_X : ℕ := 4
def NUM_THREADS_PER_WARP_Y : ℕ := 8
def WMMA_TILE_SIZE_X : ℕ := 16
def WMMA_TILE_SIZE_Y : ℕ := 16
def WMMA_TILE_SIZE_K : ℕ := 16
def BLOCK_TILE_SKEW_SIZE_X : ℕ := 16
def BLOCK_TILE_SKEW_SIZE_Y : ℕ := 16

def NUM_WARPS_X : ℕ := BLOCK_TILE_SIZE_X / WARP_TILE_SIZE_X
def NUM_WARPS_Y : ℕ := BLOCK_TILE_SIZE_Y / WARP_TILE_SIZE_Y
def NUM_THREAD_TILES_PER_WARP_X : ℕ :=
  WARP_TILE_SIZE_X / (THREAD_TILE_SIZE_X * NUM_THREADS_PER_WARP_X)
def NUM_THREAD_TILES_PER_WARP_Y : ℕ :=
  WARP_TILE_SIZE_Y / (THREAD_TILE_SIZE_Y * NUM_THREADS_PER_WARP_Y)

/-- v06: `NUM_THREADS_PER_BLOCK = NUM_THREADS_X * NUM_THREADS_Y` (lines 540-543). -/
def NUM_THREADS_PER_BLOCK_V06 : ℕ :=
  (NUM_WARPS_X * NUM_THREADS_PER_WARP_X) * (NUM_WARPS_Y * NUM_THREADS_PER_WARP_Y)

/-- v07: `NUM_THREADS_PER_BLOCK = NUM_WARPS_X * NUM_WARPS_Y * 32` (line 219). -/
def NUM_THREADS_PER_BLOCK_V07 : ℕ := NUM_WARPS_X * NUM_WARPS_Y * 32

/-- Number of warps of a v07 block. -/
def NUM_WARPS_V07 : ℕ := NUM_THREADS_PER_BLOCK_V07 / 32

def NUM_WMMA_TILES_X : ℕ := WARP_TILE_SIZE_X / WMMA_TILE_SIZE_X
def NUM_WMMA_TILES_Y : ℕ := WARP_TILE_SIZE_Y / WMMA_TILE_SIZE_Y
def NUM_WMMA_TILES_K : ℕ := BLOCK_TILE_SIZE_K / WMMA_TILE_SIZE_K

/-- `VECTORIZED_THREAD_TILE_SIZE_X = THREAD_TILE_SIZE_X / NUM_VECTOR_UNITS`
(line 323), with `nvu = NUM_VECTOR_UNITS = sizeof(int4)/sizeof(T)`. -/
def VECTORIZED_THREAD_TILE_SIZE_X (nvu : ℕ) : ℕ := THREAD_TILE_SIZE_X / nvu

/-- `num_thread_block_tiles = (k + BLOCK_TILE_SIZE_K - 1) / BLOCK_TILE_SIZE_K`
(lines 82-83 and 310-311). -/
def num_thread_block_tiles (k : ℕ) : ℕ :=
  (k + BLOCK_TILE_SIZE_K - 1) / BLOCK_TILE_SIZE_K

/-- Grid dimensions computed by both launch functions (lines 223-228 and
546-551): `( (unsigned(n) + BLOCK_TILE_SIZE_X - 1) / BLOCK_TILE_SIZE_X,
(unsigned(m) + BLOCK_TILE_SIZE_Y - 1) / BLOCK_TILE_SIZE_Y, 1 )`, in
32-bit unsigned arithmetic. -/
def launch_grid_dim (m n : ℕ) : ℕ × ℕ × ℕ :=
  (u32 (u32 n + (BLOCK_TILE_SIZE_X - 1)) / BLOCK_TILE_SIZE_X,
   u32 (u32 m + (BLOCK_TILE_SIZE_Y - 1)) / BLOCK_TILE_SIZE_Y,
   1)

/-- Block dimensions of `launch_gemm_kernel_v06_vectorized` (line 545). -/
def v06_block_dim : ℕ × ℕ × ℕ := (NUM_THREADS_PER_BLOCK_V06, 1, 1)

/-- Block dimensions of `launch_gemm_kernel_v07_vectorized` (line 222). -/
def v07_block_dim : ℕ × ℕ × ℕ := (NUM_THREADS_PER_BLOCK_V07, 1, 1)

/-! ## The output buffer -/

/-- The state of the output buffer `C`: the flat device memory holding it, and
the set of offsets into it the kernel under consideration has accessed (each
such offset is first read — the `int4` load of v06 / the `load_matrix_sync` of
v07 — and then written by the matching store). -/
structure CMem (R : Type) where
  mem : ℕ → R
  touched : ℕ → Bool

/-! ## The shared-memory staging loader (spec-modelled)

`load_data_to_shared_memory_transposed_vectorized` is declared in
`cuda_gemm_utils.cuh`, which is not part of `src/`; only its call sites are.
It is therefore modelled from the spec, §4.1: it fills the shared buffer
`A_thread_block_tile_transposed` with the sub-tile of A (transposed) and
`B_thread_block_tile` with the sub-tile of B (natural orientation) selected by
the reduction-tile index and the calling block, zero-padding every element
that falls outside the `m × k` (resp. `k × n`) bounds ("Must correctly
zero-pad or otherwise safely handle the final partial tile … out-of-bounds
reads must not occur"). -/

/-- Modelled from the spec: contents of the shared buffer
`A_thread_block_tile_transposed` after the staging load for reduction tile
`tileIdx` by block row `byIdx`: entry `[kk][r]` holds the element of A at row
`byIdx * BLOCK_TILE_SIZE_Y + r`, reduction index
`tileIdx * BLOCK_TILE_SIZE_K + kk`, zero-padded outside `m × k`. -/
def A_thread_block_tile_transposed {R : Type} [Zero R] (A : ℕ → ℕ → R)
    (m k byIdx tileIdx kk r : ℕ) : R :=
  if byIdx * BLOCK_TILE_SIZE_Y + r < m ∧ tileIdx * BLOCK_TILE_SIZE_K + kk < k then
    A (byIdx * BLOCK_TILE_SIZE_Y + r) (tileIdx * BLOCK_TILE_SIZE_K + kk)
  else 0

/-- Modelled from the spec: contents of the shared buffer
`B_thread_block_tile` after the staging load for reduction tile `tileIdx` by
block column `bxIdx`: entry `[kk][c]` holds the element of B at reduction
index `tileIdx * BLOCK_TILE_SIZE_K + kk`, column `bxIdx * BLOCK_TILE_SIZE_X + c`,
zero-padded outside `k × n`. -/
def B_thread_block_tile {R : Type} [Zero R] (B : ℕ → ℕ → R)
    (n k bxIdx tileIdx kk c : ℕ) : R :=
  if tileIdx * BLOCK_TILE_SIZE_K + kk < k ∧ bxIdx * BLOCK_TILE_SIZE_X + c < n then
    B (tileIdx * BLOCK_TILE_SIZE_K + kk) (bxIdx * BLOCK_TILE_SIZE_X + c)
  else 0

/-! ## The register-blocked kernel `gemm_v06_vectorized` (lines 257-508) -/

/-- The register array `A_vals` of one thread for reduction step `kk` of tile
`tileIdx` (lines 288-290 and 355-379): the vectorized copy loop transfers,
for each `repRow`, the `THREAD_TILE_SIZE_Y` consecutive shared-memory entries
starting at row offset
`warpRowIdx * WARP_TILE_SIZE_Y + repRow * (WARP_TILE_SIZE_Y / NUM_THREAD_TILES_PER_WARP_Y)
+ threadRowInWarp * THREAD_TILE_SIZE_Y`, so `A_vals[repRow][t]` holds the
shared entry at that base plus `t`. -/
def A_vals {R : Type} [Zero R] (A : ℕ → ℕ → R)
    (m k byIdx tileIdx kk warpRowIdx threadRowInWarp repRow t : ℕ) : R :=
  A_thread_block_tile_transposed A m k byIdx tileIdx kk
    (warpRowIdx * WARP_TILE_SIZE_Y +
     repRow * (WARP_TILE_SIZE_Y / NUM_THREAD_TILES_PER_WARP_Y) +
     threadRowInWarp * THREAD_TILE_SIZE_Y + t)

/-- The register array `B_vals` of one thread for reduction step `kk` of tile
`tileIdx` (lines 291-293 and 381-406): `B_vals[repCol][t]` holds the shared
entry of `B_thread_block_tile[kk]` at column offset
`warpColIdx * WARP_TILE_SIZE_X + repCol * (WARP_TILE_SIZE_X / NUM_THREAD_TILES_PER_WARP_X)
+ threadColInWarp * THREAD_TILE_SIZE_X + t`. -/
def B_vals {R : Type} [Zero R] (B : ℕ → ℕ → R)
    (n k bxIdx tileIdx kk warpColIdx threadColInWarp repCol t : ℕ) : R :=
  B_thread_block_tile B n k bxIdx tileIdx kk
    (warpColIdx * WARP_TILE_SIZE_X +
     repCol * (WARP_TILE_SIZE_X / NUM_THREAD_TILES_PER_WARP_X) +
     threadColInWarp * THREAD_TILE_SIZE_X + t)

/-- One reduction step `k_i = kk` of tile `tileIdx` (lines 352-442): every
entry `[repRow][repCol][ty][tx]` of the private accumulator array
`C_thread_results` gains `A_vals[repRow][ty] * B_vals[repCol][tx]`. -/
def v06_acc_step {R : Type} [Mul R] [Add R] [Zero R] (A B : ℕ → ℕ → R)
    (m n k byIdx bxIdx warpRowIdx warpColIdx threadRowInWarp threadColInWarp : ℕ)
    (tileIdx kk : ℕ) (acc : ℕ → ℕ → ℕ → ℕ → R) : ℕ → ℕ → ℕ → ℕ → R :=
  fun repRow repCol ty tx =>
    acc repRow repCol ty tx +
      A_vals A m k byIdx tileIdx kk warpRowIdx threadRowInWarp repRow ty *
        B_vals B n k bxIdx tileIdx kk warpColIdx threadColInWarp repCol tx

/-- The private accumulator array `C_thread_results` of one thread after the
whole reduction loop (lines 315-317 and 330-445): zero-initialized, then for
each of the `num_thread_block_tiles` reduction tiles and each of the
`BLOCK_TILE_SIZE_K` reduction steps, updated by `v06_acc_step`. -/
def C_thread_results {R : Type} [Mul R] [Add R] [Zero R] (A B : ℕ → ℕ → R)
    (m n k byIdx bxIdx warpRowIdx warpColIdx threadRowInWarp threadColInWarp : ℕ) :
    ℕ → ℕ → ℕ → ℕ → R :=
  (List.range (num_thread_block_tiles k)).foldl
    (fun acc tileIdx =>
      (List.range BLOCK_TILE_SIZE_K).foldl
        (fun acc kk =>
          v06_acc_step A B m n k byIdx bxIdx warpRowIdx warpColIdx
            threadRowInWarp threadColInWarp tileIdx kk acc)
        acc)
    (fun _ _ _ _ => 0)

/-- One guarded vectorized load-modify-store of the v06 write-back loop
(lines 484-503): if `C_row_idx < m && C_col_idx < n`, read the `nvu`
consecutive elements of C starting at `C_row_idx * ldc + C_col_idx` (an `int4`
load), blend each as `alpha * C_thread_results[...][...] + beta * C_vals[i]`,
and store the `nvu` elements back; otherwise do nothing. -/
def v06_vec_store {R : Type} [Mul R] [Add R] (m n ldc nvu : ℕ) (alpha beta : R)
    (acc : ℕ → ℕ → ℕ → ℕ → R) (rowIdx colIdx repRow repCol ty vecIdx : ℕ)
    (st : CMem R) : CMem R :=
  if rowIdx < m ∧ colIdx < n then
    { mem := fun o =>
        if rowIdx * ldc + colIdx ≤ o ∧ o < rowIdx * ldc + colIdx + nvu then
          alpha * acc repRow repCol ty (vecIdx * nvu + (o - (rowIdx * ldc + colIdx))) +
            beta * st.mem o
        else st.mem o,
      touched := fun o =>
        decide (rowIdx * ldc + colIdx ≤ o ∧ o < rowIdx * ldc + colIdx + nvu) ||
          st.touched o }
  else st

/-- The global row index `C_row_idx` of the v06 write-back (lines 469-475). -/
def v06_C_row_idx (byIdx warpRowIdx threadRowInWarp repRow ty : ℕ) : ℕ :=
  byIdx * BLOCK_TILE_SIZE_Y + warpRowIdx * WARP_TILE_SIZE_Y +
    repRow * (WARP_TILE_SIZE_Y / NUM_THREAD_TILES_PER_WARP_Y) +
    threadRowInWarp * THREAD_TILE_SIZE_Y + ty

/-- The global column index `C_col_idx` of the v06 write-back (lines 476-482). -/
def v06_C_col_idx (nvu bxIdx warpColIdx threadColInWarp repCol vecIdx : ℕ) : ℕ :=
  bxIdx * BLOCK_TILE_SIZE_X + warpColIdx * WARP_TILE_SIZE_X +
    repCol * (WARP_TILE_SIZE_X / NUM_THREAD_TILES_PER_WARP_X) +
    threadColInWarp * THREAD_TILE_SIZE_X + vecIdx * nvu

/-- The body of `gemm_v06_vectorized` for the thread with linear index `tIdx`
of block `(bxIdx, byIdx)`: the warp/lane decomposition of lines 295-303, the
accumulation loop (summarized by `C_thread_results`), and the write-back loops
of lines 450-507 in program order. -/
def gemm_v06_thread {R : Type} [Mul R] [Add R] [Zero R] (nvu m n k : ℕ)
    (alpha : R) (A B : ℕ → ℕ → R) (beta : R) (ldc byIdx bxIdx tIdx : ℕ)
    (st : CMem R) : CMem R :=
  let warp_linear_idx := tIdx / 32
  let warp_row_idx := warp_linear_idx / NUM_WARPS_X
  let warp_col_idx := warp_linear_idx % NUM_WARPS_X
  let thread_linear_idx_in_warp := tIdx % 32
  let thread_linear_row_idx_in_warp := thread_linear_idx_in_warp / NUM_THREADS_PER_WARP_X
  let thread_linear_col_idx_in_warp := thread_linear_idx_in_warp % NUM_THREADS_PER_WARP_X
  let acc := C_thread_results A B m n k byIdx bxIdx warp_row_idx warp_col_idx
    thread_linear_row_idx_in_warp thread_linear_col_idx_in_warp
  (List.range NUM_THREAD_TILES_PER_WARP_Y).foldl (fun st repRow =>
    (List.range NUM_THREAD_TILES_PER_WARP_X).foldl (fun st repCol =>
      (List.range THREAD_TILE_SIZE_Y).foldl (fun st ty =>
        (List.range (VECTORIZED_THREAD_TILE_SIZE_X nvu)).foldl (fun st vecIdx =>
          v06_vec_store m n ldc nvu alpha beta acc
            (v06_C_row_idx byIdx warp_row_idx thread_linear_row_idx_in_warp repRow ty)
            (v06_C_col_idx nvu bxIdx warp_col_idx thread_linear_col_idx_in_warp repCol vecIdx)
            repRow repCol ty vecIdx st) st) st) st) st

/-- Execution of the `gemm_v06_vectorized` grid: every block `(bxIdx, byIdx)`
of the `gridX × gridY` grid runs `NUM_THREADS_PER_BLOCK_V06` threads.  The
parameters `lda`, `ldb` address A and B inside the staging loader and are
absorbed into the matrix functions `A`, `B` (see the module docstring). -/
def gemm_v06_vectorized {R : Type} [Mul R] [Add R] [Zero R] (nvu m n k : ℕ)
    (alpha : R) (A : ℕ → ℕ → R) (lda : ℕ) (B : ℕ → ℕ → R) (ldb : ℕ) (beta : R)
    (ldc gridX gridY : ℕ) (st : CMem R) : CMem R :=
  (List.range gridY).foldl (fun st byIdx =>
    (List.range gridX).foldl (fun st bxIdx =>
      (List.range NUM_THREADS_PER_BLOCK_V06).foldl (fun st tIdx =>
        gemm_v06_thread nvu m n k alpha A B beta ldc byIdx bxIdx tIdx st) st) st) st

/-- `launch_gemm_kernel_v06_vectorized` (lines 511-559): computes the grid
dimensions (32-bit unsigned arithmetic) and launches the kernel.  `alpha` and
`beta` are already dereferenced (`*alpha`, `*beta` at line 556). -/
def launch_gemm_kernel_v06_vectorized {R : Type} [Mul R] [Add R] [Zero R]
    (nvu m n k : ℕ) (alpha : R) (A : ℕ → ℕ → R) (lda : ℕ) (B : ℕ → ℕ → R)
    (ldb : ℕ) (beta : R) (st : CMem R) (ldc : ℕ) : CMem R :=
  gemm_v06_vectorized nvu m n k alpha A lda B ldb beta ldc
    (launch_grid_dim m n).1 (launch_grid_dim m n).2.1 st

/-! ## Generic lemmas about folds -/

/-- Evaluating a fold of pointwise additions: folding `acc + f e` over a list
adds the sum of the `f e` to the initial accumulator entry. -/
theorem foldl_fun_add_apply {R : Type} [AddCommMonoid R] {β : Type} (l : List β)
    (f : β → ℕ → ℕ → ℕ → ℕ → R) (acc : ℕ → ℕ → ℕ → ℕ → R) (a b c d : ℕ) :
    (l.foldl (fun acc e => fun w x y z => acc w x y z + f e w x y z) acc) a b c d
      = acc a b c d + (l.map (fun e => f e a b c d)).sum := by
  induction l generalizing acc with
  | nil => simp
  | cons e t ih =>
    simp only [List.foldl_cons, List.map_cons, List.sum_cons]
    rw [ih, add_assoc]

/-- Sum of a function mapped over `List.range` as a `Finset.range` sum. -/
theorem list_range_map_sum {R : Type} [AddCommMonoid R] (n : ℕ) (f : ℕ → R) :
    ((List.range n).map f).sum = ∑ i ∈ Finset.range n, f i := by
  induction n with
  | zero => simp
  | succ n ih =>
    rw [List.range_succ, List.map_append, List.sum_append, Finset.sum_range_succ, ih]
    simp

/-- Splitting a sum over `range (a + b)`. -/
theorem sum_range_add {R : Type} [AddCommMonoid R] (f : ℕ → R) (a b : ℕ) :
    ∑ i ∈ Finset.range (a + b), f i
      = (∑ i ∈ Finset.range a, f i) + ∑ i ∈ Finset.range b, f (a + i) := by
  induction b with
  | zero => simp
  | succ b ih =>
    rw [show a + (b + 1) = (a + b) + 1 by ring, Finset.sum_range_succ, ih,
      Finset.sum_range_succ, add_assoc]

/-- Collapsing a double sum over tiles and in-tile steps into a single sum
over the flattened reduction index. -/
theorem sum_sum_range_mul {R : Type} [AddCommMonoid R] (f : ℕ → R) (N K : ℕ) :
    (∑ t ∈ Finset.range N, ∑ kk ∈ Finset.range K, f (t * K + kk))
      = ∑ p ∈ Finset.range (N * K), f p := by
  induction N with
  | zero => simp
  | succ N ih =>
    rw [Finset.sum_range_succ, ih, show (N + 1) * K = N * K + K by ring,
      sum_range_add]

/-! ## Read-modify-write folds over disjoint offset sets

The write-back of both kernels is a sequence of guarded load-modify-store
operations on the `C` buffer.  `Updates F W g` captures the net effect of such
a sequence when its writes are pairwise disjoint: every offset in `W` is
rewritten by `g` applied to its original content, every other offset (and the
`touched` flag bookkeeping) is preserved. -/

/-- `F` updates exactly the offsets in `W`, rewriting each with `g` applied to
the value the offset held before `F` ran, and marks exactly `W` as touched. -/
def Updates {R : Type} (F : CMem R → CMem R) (W : ℕ → Bool) (g : ℕ → R → R) : Prop :=
  ∀ (st : CMem R) (o : ℕ),
    ((F st).mem o = if W o then g o (st.mem o) else st.mem o) ∧
    ((F st).touched o = (W o || st.touched o))

theorem updates_id {R : Type} (g : ℕ → R → R) :
    Updates (fun st => st) (fun _ => false) g := by
  intro st o; simp

theorem Updates.congr_W {R : Type} {F : CMem R → CMem R} {W W' : ℕ → Bool}
    {g : ℕ → R → R} (h : Updates F W g) (hW : ∀ o, W o = W' o) :
    Updates F W' g := by
  intro st o
  rcases h st o with ⟨h1, h2⟩
  rw [← hW o]
  exact ⟨h1, h2⟩

/-- Sequential composition of two disjoint update transformers. -/
theorem Updates.comp {R : Type} {F1 F2 : CMem R → CMem R} {W1 W2 : ℕ → Bool}
    {g : ℕ → R → R} (h1 : Updates F1 W1 g) (h2 : Updates F2 W2 g)
    (hd : ∀ o, W1 o = true → W2 o = true → False) :
    Updates (fun st => F2 (F1 st)) (fun o => W1 o || W2 o) g := by
  intro st o
  rcases h1 st o with ⟨m1, t1⟩
  rcases h2 (F1 st) o with ⟨m2, t2⟩
  constructor
  · rw [m2, m1]
    cases hW1 : W1 o <;> cases hW2 : W2 o
    · simp [hW1, hW2]
    · simp [hW1, hW2]
    · simp [hW1, hW2]
    · exact (hd o hW1 hW2).elim
  · rw [t2, t1]
    cases hW1 : W1 o <;> cases hW2 : W2 o <;> simp [hW1, hW2]

/-- A left fold of pairwise-disjoint update steps updates the union. -/
theorem updates_foldl {R : Type} {β : Type} (l : List β)
    (step : CMem R → β → CMem R) (W : β → ℕ → Bool) (g : ℕ → R → R)
    (h : ∀ b ∈ l, Updates (fun st => step st b) (W b) g)
    (hd : l.Pairwise (fun b b' => ∀ o, W b o = true → W b' o = true → False)) :
    Updates (fun st => l.foldl step st) (fun o => l.any (fun b => W b o)) g := by
  induction l with
  | nil => simpa using updates_id g
  | cons b t ih =>
    rw [List.pairwise_cons] at hd
    have hstep := h b (List.mem_cons_self b t)
    have htail : Updates (fun st => t.foldl step st) (fun o => t.any (fun b => W b o)) g :=
      ih (fun b' hb' => h b' (List.mem_cons_of_mem b hb')) hd.2
    have hdisj : ∀ o, W b o = true → (t.any (fun b' => W b' o)) = true → False := by
      intro o hb hany
      rw [List.any_eq_true] at hany
      rcases hany with ⟨b', hb', hWb'⟩
      exact hd.1 b' hb' o hb hWb'
    have hcomp := Updates.comp hstep htail hdisj
    simpa only [List.foldl_cons, List.any_cons] using hcomp

/-- Evaluating the doubly nested accumulation fold pointwise. -/
theorem foldl_foldl_fun_add_apply {R : Type} [AddCommMonoid R] (N K : ℕ)
    (f : ℕ → ℕ → ℕ → ℕ → ℕ → ℕ → R) (acc0 : ℕ → ℕ → ℕ → ℕ → R) (a b c d : ℕ) :
    ((List.range N).foldl (fun acc t => (List.range K).foldl
        (fun acc kk => fun w x y z => acc w x y z + f t kk w x y z) acc) acc0) a b c d
      = acc0 a b c d + ∑ t ∈ Finset.range N, ∑ kk ∈ Finset.range K, f t kk a b c d := by
  have hstep : (fun (acc : ℕ → ℕ → ℕ → ℕ → R) t => (List.range K).foldl
        (fun acc kk => fun w x y z => acc w x y z + f t kk w x y z) acc)
      = fun acc t => fun w x y z => acc w x y z + ∑ kk ∈ Finset.range K, f t kk w x y z := by
    funext acc t
    funext w x y z
    rw [foldl_fun_add_apply, list_range_map_sum]
  rw [hstep, foldl_fun_add_apply, list_range_map_sum]

/-- The private accumulator entry of a v06 thread is the double sum of the
staged products over all reduction tiles and reduction steps. -/
theorem C_thread_results_apply {R : Type} [AddCommMonoid R] [Mul R]
    (A B : ℕ → ℕ → R) (m n k byIdx bxIdx wr wc lr lc repR repC ty tx : ℕ) :
    C_thread_results A B m n k byIdx bxIdx wr wc lr lc repR repC ty tx
      = ∑ t ∈ Finset.range (num_thread_block_tiles k), ∑ kk ∈ Finset.range BLOCK_TILE_SIZE_K,
          A_vals A m k byIdx t kk wr lr repR ty * B_vals B n k bxIdx t kk wc lc repC tx := by
  unfold C_thread_results v06_acc_step
  rw [foldl_foldl_fun_add_apply]
  show (0 : R) + _ = _
  rw [zero_add]

/-- Summing the zero-padded staged products over all reduction tiles and
steps yields the reference inner product over the true reduction range. -/
theorem acc_double_sum_eq {R : Type} [CommRing R] (A B : ℕ → ℕ → R)
    (m n k byIdx bxIdx rA cB row col : ℕ)
    (hr : byIdx * BLOCK_TILE_SIZE_Y + rA = row) (hc : bxIdx * BLOCK_TILE_SIZE_X + cB = col)
    (hrow : row < m) (hcol : col < n) :
    (∑ t ∈ Finset.range (num_thread_block_tiles k), ∑ kk ∈ Finset.range BLOCK_TILE_SIZE_K,
        A_thread_block_tile_transposed A m k byIdx t kk rA *
          B_thread_block_tile B n k bxIdx t kk cB)
      = ∑ p ∈ Finset.range k, A row p * B p col := by
  have h1 : ∀ t ∈ Finset.range (num_thread_block_tiles k),
      (∑ kk ∈ Finset.range BLOCK_TILE_SIZE_K,
        A_thread_block_tile_transposed A m k byIdx t kk rA *
          B_thread_block_tile B n k bxIdx t kk cB)
      = ∑ kk ∈ Finset.range BLOCK_TILE_SIZE_K,
          (if t * BLOCK_TILE_SIZE_K + kk < k then A row (t * BLOCK_TILE_SIZE_K + kk) *
            B (t * BLOCK_TILE_SIZE_K + kk) col else 0) := by
    intro t _
    refine Finset.sum_congr rfl (fun kk _ => ?_)
    simp only [A_thread_block_tile_transposed, B_thread_block_tile, hr, hc]
    by_cases hp : t * BLOCK_TILE_SIZE_K + kk < k
    · rw [if_pos ⟨hrow, hp⟩, if_pos ⟨hp, hcol⟩, if_pos hp]
    · rw [if_neg (fun h => hp h.2), if_neg (fun h => hp h.1), if_neg hp, mul_zero]
  rw [Finset.sum_congr rfl h1, sum_sum_range_mul
    (fun p => if p < k then A row p * B p col else 0)]
  have hk : k ≤ num_thread_block_tiles k * BLOCK_TILE_SIZE_K := by
    simp only [num_thread_block_tiles, BLOCK_TILE_SIZE_K]
    omega
  rw [← Finset.sum_subset (Finset.range_subset.mpr hk)]
  · refine Finset.sum_congr rfl (fun p hp => ?_)
    rw [if_pos (Finset.mem_range.mp hp)]
  · intro p _ hp
    rw [if_neg (fun h => hp (Finset.mem_range.mpr h))]

/-! ## Characterizing the v06 write-back -/

/-- The offsets accessed by one guarded vectorized store of the v06 write-back
identified by the loop/thread/block indices: the guard of line 484 holds and
the offset lies in the `nvu`-element range of the `int4` transaction. -/
def v06_W (nvu m n ldc byIdx bxIdx wr wc lr lc repR repC ty vec o : ℕ) : Bool :=
  decide (v06_C_row_idx byIdx wr lr repR ty < m ∧
    v06_C_col_idx nvu bxIdx wc lc repC vec < n ∧
    v06_C_row_idx byIdx wr lr repR ty * ldc + v06_C_col_idx nvu bxIdx wc lc repC vec ≤ o ∧
    o < v06_C_row_idx byIdx wr lr repR ty * ldc + v06_C_col_idx nvu bxIdx wc lc repC vec + nvu)

/-- The uniform per-offset effect of the v06 write-back: offset `o` holds
element `(o / ldc, o % ldc)` of C and receives
`alpha * (A·B)[o / ldc][o % ldc] + beta * (old value)`. -/
def v06_g {R : Type} [Mul R] [AddCommMonoid R] (k ldc : ℕ) (alpha beta : R)
    (A B : ℕ → ℕ → R) : ℕ → R → R :=
  fun o v => alpha * (∑ p ∈ Finset.range k, A (o / ldc) p * B p (o % ldc)) + beta * v


/-- `v06_C_row_idx` with the launched tile constants evaluated. -/
theorem v06_C_row_idx_eq (byIdx wr lr repR ty : ℕ) :
    v06_C_row_idx byIdx wr lr repR ty
      = byIdx * 128 + wr * 64 + repR * 64 + lr * 8 + ty := rfl

/-- `v06_C_col_idx` with the launched tile constants evaluated. -/
theorem v06_C_col_idx_eq (nvu bxIdx wc lc repC vec : ℕ) :
    v06_C_col_idx nvu bxIdx wc lc repC vec
      = bxIdx * 128 + wc * 32 + repC * 32 + lc * 8 + vec * nvu := rfl

/-- Division recovery: an offset `row * ldc + r` with `r < ldc` decomposes
uniquely. -/
theorem offset_div_mod (ldc row r : ℕ) (hr : r < ldc) :
    (row * ldc + r) / ldc = row ∧ (row * ldc + r) % ldc = r := by
  have hldc : 0 < ldc := by omega
  have h1 : row * ldc + r = r + ldc * row := by ring
  constructor
  · rw [h1, Nat.add_mul_div_left r row hldc, Nat.div_eq_of_lt hr, Nat.zero_add]
  · rw [h1, Nat.add_mul_mod_self_left, Nat.mod_eq_of_lt hr]

/-- Digits of a v06 global row index. -/
theorem row_digits (byIdx wr lr repR ty i : ℕ) (hwr : wr < 2) (hlr : lr < 8)
    (hrepR : repR < 1) (hty : ty < 8)
    (hi : i = byIdx * 128 + wr * 64 + repR * 64 + lr * 8 + ty) :
    byIdx = i / 128 ∧ wr = i % 128 / 64 ∧ lr = i % 64 / 8 ∧ ty = i % 8 ∧ repR = 0 := by
  subst hi
  omega

/-- Digits of a v06 global column index (including the in-vector position). -/
theorem col_digits (nvu bxIdx wc lc repC vec u j : ℕ)
    (hnvu : nvu = 1 ∨ nvu = 2 ∨ nvu = 4 ∨ nvu = 8)
    (hwc : wc < 4) (hlc : lc < 4) (hrepC : repC < 1) (hvec : vec < 8 / nvu) (hu : u < nvu)
    (hj : j = bxIdx * 128 + wc * 32 + repC * 32 + lc * 8 + vec * nvu + u) :
    bxIdx = j / 128 ∧ wc = j % 128 / 32 ∧ lc = j % 32 / 8 ∧ vec = j % 8 / nvu ∧
      repC = 0 := by
  subst hj
  rcases hnvu with rfl | rfl | rfl | rfl <;> omega

/-- Alignment: when `nvu ∣ n`, a vectorized store whose first column is in
range lies entirely inside the row (all `nvu` columns are < `n`). -/
theorem col_align (nvu bxIdx wc lc repC vec n : ℕ)
    (hnvu : nvu = 1 ∨ nvu = 2 ∨ nvu = 4 ∨ nvu = 8) (hn : nvu ∣ n)
    (hcol : bxIdx * 128 + wc * 32 + repC * 32 + lc * 8 + vec * nvu < n) :
    bxIdx * 128 + wc * 32 + repC * 32 + lc * 8 + vec * nvu + nvu ≤ n := by
  rcases hn with ⟨b, rfl⟩
  rcases hnvu with rfl | rfl | rfl | rfl <;> omega

/-- An offset in the range of a guarded v06 vectorized store determines every
index of the store: with `nvu ∣ n` the whole `nvu`-element group lies inside
the row, `o / ldc` and `o % ldc` recover the global row and column, and their
digits recover the block, warp, lane, thread-tile and vector indices. -/
theorem v06_W_digits (nvu m n ldc byIdx bxIdx wr wc lr lc repR repC ty vec o : ℕ)
    (hnvu : nvu = 1 ∨ nvu = 2 ∨ nvu = 4 ∨ nvu = 8)
    (hn : nvu ∣ n) (hldc : n ≤ ldc)
    (hwr : wr < 2) (hwc : wc < 4) (hlr : lr < 8) (hlc : lc < 4)
    (hrepR : repR < 1) (hrepC : repC < 1) (hty : ty < 8)
    (hvec : vec < VECTORIZED_THREAD_TILE_SIZE_X nvu)
    (hW : v06_W nvu m n ldc byIdx bxIdx wr wc lr lc repR repC ty vec o = true) :
    o / ldc < m ∧ o % ldc < n ∧ o = o / ldc * ldc + o % ldc ∧
    byIdx = o / ldc / 128 ∧ wr = o / ldc % 128 / 64 ∧ lr = o / ldc % 64 / 8 ∧
    ty = o / ldc % 8 ∧ repR = 0 ∧ bxIdx = o % ldc / 128 ∧ wc = o % ldc % 128 / 32 ∧
    lc = o % ldc % 32 / 8 ∧ vec = o % ldc % 8 / nvu ∧ repC = 0 := by
  have hvec8 : vec < 8 / nvu := hvec
  simp only [v06_W, decide_eq_true_eq, v06_C_row_idx_eq, v06_C_col_idx_eq] at hW
  obtain ⟨hrow, hcol, hlo, hhi⟩ := hW
  have halign := col_align nvu bxIdx wc lc repC vec n hnvu hn hcol
  obtain ⟨u, hu, ho⟩ : ∃ u, u < nvu ∧
      o = (byIdx * 128 + wr * 64 + repR * 64 + lr * 8 + ty) * ldc +
        (bxIdx * 128 + wc * 32 + repC * 32 + lc * 8 + vec * nvu + u) := by
    refine ⟨o - ((byIdx * 128 + wr * 64 + repR * 64 + lr * 8 + ty) * ldc +
      (bxIdx * 128 + wc * 32 + repC * 32 + lc * 8 + vec * nvu)), by omega, by omega⟩
  have hjlt : bxIdx * 128 + wc * 32 + repC * 32 + lc * 8 + vec * nvu + u < ldc := by
    omega
  have hdm := offset_div_mod ldc (byIdx * 128 + wr * 64 + repR * 64 + lr * 8 + ty)
    (bxIdx * 128 + wc * 32 + repC * 32 + lc * 8 + vec * nvu + u) hjlt
  rw [ho, hdm.1, hdm.2]
  have hrd := row_digits byIdx wr lr repR ty _ hwr hlr hrepR hty rfl
  have hcd := col_digits nvu bxIdx wc lc repC vec u _ hnvu hwc hlc hrepC hvec8 hu rfl
  exact ⟨by omega, by omega, by omega, hrd.1, hrd.2.1, hrd.2.2.1, hrd.2.2.2.1,
    hrd.2.2.2.2, hcd.1, hcd.2.1, hcd.2.2.1, hcd.2.2.2.1, hcd.2.2.2.2⟩

/-- One guarded vectorized store of the v06 write-back, with the private
accumulator of the owning thread, updates exactly the offsets `v06_W` of its
`int4` transaction, rewriting each with the reference blend `v06_g`. -/
theorem v06_vec_store_updates {R : Type} [CommRing R] (nvu m n k ldc : ℕ)
    (alpha beta : R) (A B : ℕ → ℕ → R) (byIdx bxIdx wr wc lr lc repR repC ty vec : ℕ)
    (hnvu : nvu = 1 ∨ nvu = 2 ∨ nvu = 4 ∨ nvu = 8)
    (hn : nvu ∣ n) (hldc : n ≤ ldc)
    (hwr : wr < 2) (hwc : wc < 4) (hlr : lr < 8) (hlc : lc < 4)
    (hrepR : repR < 1) (hrepC : repC < 1) (hty : ty < 8)
    (hvec : vec < VECTORIZED_THREAD_TILE_SIZE_X nvu) :
    Updates (fun st => v06_vec_store m n ldc nvu alpha beta
        (C_thread_results A B m n k byIdx bxIdx wr wc lr lc)
        (v06_C_row_idx byIdx wr lr repR ty) (v06_C_col_idx nvu bxIdx wc lc repC vec)
        repR repC ty vec st)
      (v06_W nvu m n ldc byIdx bxIdx wr wc lr lc repR repC ty vec)
      (v06_g k ldc alpha beta A B) := by
  intro st o
  by_cases hg : v06_C_row_idx byIdx wr lr repR ty < m ∧
      v06_C_col_idx nvu bxIdx wc lc repC vec < n
  · by_cases hr : v06_C_row_idx byIdx wr lr repR ty * ldc +
        v06_C_col_idx nvu bxIdx wc lc repC vec ≤ o ∧
        o < v06_C_row_idx byIdx wr lr repR ty * ldc +
          v06_C_col_idx nvu bxIdx wc lc repC vec + nvu
    · have hW : v06_W nvu m n ldc byIdx bxIdx wr wc lr lc repR repC ty vec o = true := by
        simp only [v06_W, decide_eq_true_eq]
        exact ⟨hg.1, hg.2, hr.1, hr.2⟩
      obtain ⟨him, hjn, hsplit, hby, hwr', hlr', hty', hrR, hbx, hwc', hlc', hvec', hrC⟩ :=
        v06_W_digits nvu m n ldc byIdx bxIdx wr wc lr lc repR repC ty vec o
          hnvu hn hldc hwr hwc hlr hlc hrepR hrepC hty hvec hW
      have hrow_eq : o / ldc = v06_C_row_idx byIdx wr lr repR ty := by
        simp only [v06_C_row_idx_eq]
        omega
      have hcol_eq : o % ldc = v06_C_col_idx nvu bxIdx wc lc repC vec +
          (o - (v06_C_row_idx byIdx wr lr repR ty * ldc +
            v06_C_col_idx nvu bxIdx wc lc repC vec)) := by
        rw [hrow_eq] at hsplit
        omega
      have hrA : byIdx * BLOCK_TILE_SIZE_Y +
          (wr * WARP_TILE_SIZE_Y + repR * (WARP_TILE_SIZE_Y / NUM_THREAD_TILES_PER_WARP_Y) +
            lr * THREAD_TILE_SIZE_Y + ty) = o / ldc := by
        rw [hrow_eq]
        simp only [v06_C_row_idx, BLOCK_TILE_SIZE_Y, WARP_TILE_SIZE_Y,
          NUM_THREAD_TILES_PER_WARP_Y, THREAD_TILE_SIZE_Y, NUM_THREADS_PER_WARP_Y]
        omega
      have hcB : bxIdx * BLOCK_TILE_SIZE_X +
          (wc * WARP_TILE_SIZE_X + repC * (WARP_TILE_SIZE_X / NUM_THREAD_TILES_PER_WARP_X) +
            lc * THREAD_TILE_SIZE_X +
            (vec * nvu + (o - (v06_C_row_idx byIdx wr lr repR ty * ldc +
              v06_C_col_idx nvu bxIdx wc lc repC vec)))) = o % ldc := by
        rw [hcol_eq]
        simp only [v06_C_col_idx, BLOCK_TILE_SIZE_X, WARP_TILE_SIZE_X,
          NUM_THREAD_TILES_PER_WARP_X, THREAD_TILE_SIZE_X, NUM_THREADS_PER_WARP_X]
        omega
      constructor
      · simp only [v06_vec_store, if_pos hg]
        rw [hW]
        simp only [if_true]
        rw [if_pos hr, C_thread_results_apply]
        simp only [A_vals, B_vals]
        rw [acc_double_sum_eq A B m n k byIdx bxIdx _ _ (o / ldc) (o % ldc) hrA hcB him hjn]
        rfl
      · simp only [v06_vec_store, if_pos hg]
        rw [hW]
        simp only [Bool.true_or]
        rw [decide_eq_true hr]
        simp
    · have hW : v06_W nvu m n ldc byIdx bxIdx wr wc lr lc repR repC ty vec o = false := by
        simp only [v06_W, decide_eq_false_iff_not]
        intro hcon
        exact hr ⟨hcon.2.2.1, hcon.2.2.2⟩
      constructor
      · simp only [v06_vec_store, if_pos hg]
        rw [hW]
        simp only [Bool.false_eq_true, if_false]
        rw [if_neg hr]
      · simp only [v06_vec_store, if_pos hg]
        rw [hW, decide_eq_false hr]
  · have hW : v06_W nvu m n ldc byIdx bxIdx wr wc lr lc repR repC ty vec o = false := by
      simp only [v06_W, decide_eq_false_iff_not]
      intro hcon
      exact hg ⟨hcon.1, hcon.2.1⟩
    constructor
    · simp only [v06_vec_store, if_neg hg]
      rw [hW]
      simp
    · simp only [v06_vec_store, if_neg hg]
      rw [hW]
      simp

/-- Offsets accessed by one whole thread of v06 (all iterations of its
write-back loops); the warp/lane indices are derived from the thread linear
index as at lines 295-303.  The two thread-tile repetition loops have a single
iteration at the launched configuration
(`NUM_THREAD_TILES_PER_WARP_X = NUM_THREAD_TILES_PER_WARP_Y = 1`). -/
def v06_thread_W (nvu m n ldc byIdx bxIdx tIdx o : ℕ) : Bool :=
  (List.range THREAD_TILE_SIZE_Y).any fun ty =>
    (List.range (VECTORIZED_THREAD_TILE_SIZE_X nvu)).any fun vecIdx =>
      v06_W nvu m n ldc byIdx bxIdx (tIdx / 32 / NUM_WARPS_X) (tIdx / 32 % NUM_WARPS_X)
        (tIdx % 32 / NUM_THREADS_PER_WARP_X) (tIdx % 32 % NUM_THREADS_PER_WARP_X)
        0 0 ty vecIdx o

/-- Building a pairwise property on `List.range` from an ordered bounded
statement. -/
theorem pairwise_range_of (N : ℕ) (p : ℕ → ℕ → Prop)
    (h : ∀ a b, a < N → b < N → a < b → p a b) : (List.range N).Pairwise p := by
  refine List.Pairwise.imp_of_mem ?_ (List.pairwise_lt_range N)
  intro a b ha hb hab
  exact h a b (List.mem_range.mp ha) (List.mem_range.mp hb) hab

/-- The thread body collapsed over the singleton thread-tile repetition
loops. -/
theorem gemm_v06_thread_def {R : Type} [Mul R] [Add R] [Zero R] (nvu m n k : ℕ)
    (alpha : R) (A B : ℕ → ℕ → R) (beta : R) (ldc byIdx bxIdx tIdx : ℕ) (st : CMem R) :
    gemm_v06_thread nvu m n k alpha A B beta ldc byIdx bxIdx tIdx st =
      (List.range THREAD_TILE_SIZE_Y).foldl (fun st ty =>
        (List.range (VECTORIZED_THREAD_TILE_SIZE_X nvu)).foldl (fun st vecIdx =>
          v06_vec_store m n ldc nvu alpha beta
            (C_thread_results A B m n k byIdx bxIdx (tIdx / 32 / NUM_WARPS_X)
              (tIdx / 32 % NUM_WARPS_X) (tIdx % 32 / NUM_THREADS_PER_WARP_X)
              (tIdx % 32 % NUM_THREADS_PER_WARP_X))
            (v06_C_row_idx byIdx (tIdx / 32 / NUM_WARPS_X)
              (tIdx % 32 / NUM_THREADS_PER_WARP_X) 0 ty)
            (v06_C_col_idx nvu bxIdx (tIdx / 32 % NUM_WARPS_X)
              (tIdx % 32 % NUM_THREADS_PER_WARP_X) 0 vecIdx)
            0 0 ty vecIdx st) st) st := rfl

/-- A thread of a v06 block performs a disjoint read-modify-write over its
`v06_thread_W` offsets, blending each with `v06_g`. -/
theorem gemm_v06_thread_updates {R : Type} [CommRing R] (nvu m n k ldc : ℕ)
    (alpha beta : R) (A B : ℕ → ℕ → R) (byIdx bxIdx tIdx : ℕ)
    (hnvu : nvu = 1 ∨ nvu = 2 ∨ nvu = 4 ∨ nvu = 8) (hn : nvu ∣ n) (hldc : n ≤ ldc)
    (ht : tIdx < NUM_THREADS_PER_BLOCK_V06) :
    Updates (fun st => gemm_v06_thread nvu m n k alpha A B beta ldc byIdx bxIdx tIdx st)
      (v06_thread_W nvu m n ldc byIdx bxIdx tIdx) (v06_g k ldc alpha beta A B) := by
  have ht' : tIdx < 256 := ht
  have hwr : tIdx / 32 / NUM_WARPS_X < 2 := by
    show tIdx / 32 / 4 < 2
    omega
  have hwc : tIdx / 32 % NUM_WARPS_X < 4 := by
    show tIdx / 32 % 4 < 4
    omega
  have hlr : tIdx % 32 / NUM_THREADS_PER_WARP_X < 8 := by
    show tIdx % 32 / 4 < 8
    omega
  have hlc : tIdx % 32 % NUM_THREADS_PER_WARP_X < 4 := by
    show tIdx % 32 % 4 < 4
    omega
  have hU : Updates (fun st => (List.range THREAD_TILE_SIZE_Y).foldl (fun st ty =>
      (List.range (VECTORIZED_THREAD_TILE_SIZE_X nvu)).foldl (fun st vecIdx =>
        v06_vec_store m n ldc nvu alpha beta
          (C_thread_results A B m n k byIdx bxIdx (tIdx / 32 / NUM_WARPS_X)
            (tIdx / 32 % NUM_WARPS_X) (tIdx % 32 / NUM_THREADS_PER_WARP_X)
            (tIdx % 32 % NUM_THREADS_PER_WARP_X))
          (v06_C_row_idx byIdx (tIdx / 32 / NUM_WARPS_X)
            (tIdx % 32 / NUM_THREADS_PER_WARP_X) 0 ty)
          (v06_C_col_idx nvu bxIdx (tIdx / 32 % NUM_WARPS_X)
            (tIdx % 32 % NUM_THREADS_PER_WARP_X) 0 vecIdx)
          0 0 ty vecIdx st) st) st)
      (fun o => (List.range THREAD_TILE_SIZE_Y).any fun ty =>
        (List.range (VECTORIZED_THREAD_TILE_SIZE_X nvu)).any fun vecIdx =>
          v06_W nvu m n ldc byIdx bxIdx (tIdx / 32 / NUM_WARPS_X) (tIdx / 32 % NUM_WARPS_X)
            (tIdx % 32 / NUM_THREADS_PER_WARP_X) (tIdx % 32 % NUM_THREADS_PER_WARP_X)
            0 0 ty vecIdx o)
      (v06_g k ldc alpha beta A B) := by
    refine updates_foldl _ _ _ _ ?_ ?_
    · intro ty hty
      rw [List.mem_range] at hty
      refine updates_foldl _ _ _ _ ?_ ?_
      · intro vecIdx hvec
        rw [List.mem_range] at hvec
        exact v06_vec_store_updates nvu m n k ldc alpha beta A B byIdx bxIdx
          (tIdx / 32 / NUM_WARPS_X) (tIdx / 32 % NUM_WARPS_X)
          (tIdx % 32 / NUM_THREADS_PER_WARP_X) (tIdx % 32 % NUM_THREADS_PER_WARP_X)
          0 0 ty vecIdx hnvu hn hldc hwr hwc hlr hlc Nat.one_pos Nat.one_pos hty hvec
      · refine pairwise_range_of _ _ ?_
        intro v v' hv hv' hlt o h1 h2
        have d1 := v06_W_digits nvu m n ldc byIdx bxIdx _ _ _ _ 0 0 ty v o
          hnvu hn hldc hwr hwc hlr hlc Nat.one_pos Nat.one_pos hty hv h1
        have d2 := v06_W_digits nvu m n ldc byIdx bxIdx _ _ _ _ 0 0 ty v' o
          hnvu hn hldc hwr hwc hlr hlc Nat.one_pos Nat.one_pos hty hv' h2
        omega
    · refine pairwise_range_of _ _ ?_
      intro a b ha hb hab o h1 h2
      rw [List.any_eq_true] at h1 h2
      obtain ⟨v1, hv1, hW1⟩ := h1
      obtain ⟨v2, hv2, hW2⟩ := h2
      rw [List.mem_range] at hv1 hv2
      have d1 := v06_W_digits nvu m n ldc byIdx bxIdx _ _ _ _ 0 0 a v1 o
        hnvu hn hldc hwr hwc hlr hlc Nat.one_pos Nat.one_pos ha hv1 hW1
      have d2 := v06_W_digits nvu m n ldc byIdx bxIdx _ _ _ _ 0 0 b v2 o
        hnvu hn hldc hwr hwc hlr hlc Nat.one_pos Nat.one_pos hb hv2 hW2
      omega
  exact hU

/-- Full digit characterization of an offset accessed by a v06 thread:
the offset determines the block indices and the thread linear index. -/
theorem v06_thread_W_digits (nvu m n ldc byIdx bxIdx tIdx o : ℕ)
    (hnvu : nvu = 1 ∨ nvu = 2 ∨ nvu = 4 ∨ nvu = 8) (hn : nvu ∣ n) (hldc : n ≤ ldc)
    (ht : tIdx < NUM_THREADS_PER_BLOCK_V06)
    (h : v06_thread_W nvu m n ldc byIdx bxIdx tIdx o = true) :
    o / ldc < m ∧ o % ldc < n ∧ o = o / ldc * ldc + o % ldc ∧
    byIdx = o / ldc / 128 ∧ bxIdx = o % ldc / 128 ∧
    tIdx = (o / ldc % 128 / 64 * 4 + o % ldc % 128 / 32) * 32 +
      (o / ldc % 64 / 8 * 4 + o % ldc % 32 / 8) := by
  have ht' : tIdx < 256 := ht
  have hwr : tIdx / 32 / NUM_WARPS_X < 2 := by
    show tIdx / 32 / 4 < 2
    omega
  have hwc : tIdx / 32 % NUM_WARPS_X < 4 := by
    show tIdx / 32 % 4 < 4
    omega
  have hlr : tIdx % 32 / NUM_THREADS_PER_WARP_X < 8 := by
    show tIdx % 32 / 4 < 8
    omega
  have hlc : tIdx % 32 % NUM_THREADS_PER_WARP_X < 4 := by
    show tIdx % 32 % 4 < 4
    omega
  simp only [v06_thread_W, List.any_eq_true, List.mem_range] at h
  obtain ⟨ty, hty, vecIdx, hvec, hW⟩ := h
  obtain ⟨h1, h2, h3, hby, hwr', hlr', hty', hrR, hbx, hwc', hlc', hvec', hrC⟩ :=
    v06_W_digits nvu m n ldc byIdx bxIdx _ _ _ _ 0 0 ty vecIdx o
      hnvu hn hldc hwr hwc hlr hlc Nat.one_pos Nat.one_pos hty hvec hW
  have ewr : tIdx / 32 / 4 = o / ldc % 128 / 64 := hwr'
  have ewc : tIdx / 32 % 4 = o % ldc % 128 / 32 := hwc'
  have elr : tIdx % 32 / 4 = o / ldc % 64 / 8 := hlr'
  have elc : tIdx % 32 % 4 = o % ldc % 32 / 8 := hlc'
  exact ⟨h1, h2, h3, hby, hbx, by omega⟩

/-- Offsets accessed by the whole v06 grid. -/
def v06_total_W (nvu m n ldc gridX gridY o : ℕ) : Bool :=
  (List.range gridY).any fun byIdx =>
    (List.range gridX).any fun bxIdx =>
      (List.range NUM_THREADS_PER_BLOCK_V06).any fun tIdx =>
        v06_thread_W nvu m n ldc byIdx bxIdx tIdx o

/-- The v06 grid performs a disjoint read-modify-write over its `v06_total_W`
offsets, blending each one with the reference blend `v06_g` applied to the
original content of C (valid for any grid dimensions). -/
theorem gemm_v06_vectorized_updates {R : Type} [CommRing R]
    (nvu m n k lda ldb ldc gridX gridY : ℕ) (alpha beta : R) (A B : ℕ → ℕ → R)
    (hnvu : nvu = 1 ∨ nvu = 2 ∨ nvu = 4 ∨ nvu = 8) (hn : nvu ∣ n) (hldc : n ≤ ldc) :
    Updates
      (fun st => gemm_v06_vectorized nvu m n k alpha A lda B ldb beta ldc gridX gridY st)
      (v06_total_W nvu m n ldc gridX gridY) (v06_g k ldc alpha beta A B) := by
  have hU : Updates
      (fun st => (List.range gridY).foldl (fun st byIdx =>
        (List.range gridX).foldl (fun st bxIdx =>
          (List.range NUM_THREADS_PER_BLOCK_V06).foldl (fun st tIdx =>
            gemm_v06_thread nvu m n k alpha A B beta ldc byIdx bxIdx tIdx st) st) st) st)
      (fun o => (List.range gridY).any fun byIdx =>
        (List.range gridX).any fun bxIdx =>
          (List.range NUM_THREADS_PER_BLOCK_V06).any fun tIdx =>
            v06_thread_W nvu m n ldc byIdx bxIdx tIdx o)
      (v06_g k ldc alpha beta A B) := by
    refine updates_foldl _ _ _ _ ?_ ?_
    · intro byIdx _
      refine updates_foldl _ _ _ _ ?_ ?_
      · intro bxIdx _
        refine updates_foldl _ _ _ _ ?_ ?_
        · intro tIdx htm
          rw [List.mem_range] at htm
          exact gemm_v06_thread_updates nvu m n k ldc alpha beta A B byIdx bxIdx tIdx
            hnvu hn hldc htm
        · refine pairwise_range_of _ _ ?_
          intro a b ha hb hab o h1 h2
          have d1 := v06_thread_W_digits nvu m n ldc byIdx bxIdx a o hnvu hn hldc ha h1
          have d2 := v06_thread_W_digits nvu m n ldc byIdx bxIdx b o hnvu hn hldc hb h2
          omega
      · refine pairwise_range_of _ _ ?_
        intro a b ha hb hab o h1 h2
        rw [List.any_eq_true] at h1 h2
        obtain ⟨t1, ht1, hW1⟩ := h1
        obtain ⟨t2, ht2, hW2⟩ := h2
        have d1 := v06_thread_W_digits nvu m n ldc byIdx a t1 o hnvu hn hldc
          (List.mem_range.mp ht1) hW1
        have d2 := v06_thread_W_digits nvu m n ldc byIdx b t2 o hnvu hn hldc
          (List.mem_range.mp ht2) hW2
        omega
    · refine pairwise_range_of _ _ ?_
      intro a b ha hb hab o h1 h2
      rw [List.any_eq_true] at h1 h2
      obtain ⟨x1, _, h1⟩ := h1
      obtain ⟨x2, _, h2⟩ := h2
      rw [List.any_eq_true] at h1 h2
      obtain ⟨t1, ht1, hW1⟩ := h1
      obtain ⟨t2, ht2, hW2⟩ := h2
      have d1 := v06_thread_W_digits nvu m n ldc a x1 t1 o hnvu hn hldc
        (List.mem_range.mp ht1) hW1
      have d2 := v06_thread_W_digits nvu m n ldc b x2 t2 o hnvu hn hldc
        (List.mem_range.mp ht2) hW2
      omega
  exact hU

/-- The x grid dimension computed by the launch functions equals the exact
ceiling when no 32-bit overflow occurs. -/
theorem launch_grid_dim_fst (m n : ℕ) (hn : n + 127 < 4294967296) :
    (launch_grid_dim m n).1 = (n + 127) / 128 := by
  show u32 (u32 n + 127) / 128 = (n + 127) / 128
  unfold u32
  omega

/-- The y grid dimension computed by the launch functions equals the exact
ceiling when no 32-bit overflow occurs. -/
theorem launch_grid_dim_snd (m n : ℕ) (hm : m + 127 < 4294967296) :
    (launch_grid_dim m n).2.1 = (m + 127) / 128 := by
  show u32 (u32 m + 127) / 128 = (m + 127) / 128
  unfold u32
  omega

/-- The divisors of 8 that can arise as `NUM_VECTOR_UNITS`. -/
theorem nvu_cases (nvu : ℕ) (h8 : nvu ∣ 8) (h0 : 0 < nvu) :
    nvu = 1 ∨ nvu = 2 ∨ nvu = 4 ∨ nvu = 8 := by
  have hle : nvu ≤ 8 := Nat.le_of_dvd (by norm_num) h8
  interval_cases nvu <;> omega

/-- With the launched grid, the set of offsets the v06 kernel accesses is
exactly the set of valid positions of C: offsets `i * ldc + j`, `i < m`,
`j < n`. -/
theorem v06_total_W_iff (nvu m n ldc : ℕ)
    (hnvu : nvu = 1 ∨ nvu = 2 ∨ nvu = 4 ∨ nvu = 8) (hn : nvu ∣ n) (hldc : n ≤ ldc)
    (hm32 : m + 127 < 4294967296) (hn32 : n + 127 < 4294967296) (o : ℕ) :
    v06_total_W nvu m n ldc (launch_grid_dim m n).1 (launch_grid_dim m n).2.1 o = true ↔
      ∃ i j, i < m ∧ j < n ∧ o = i * ldc + j := by
  constructor
  · intro h
    simp only [v06_total_W, List.any_eq_true, List.mem_range] at h
    obtain ⟨byIdx, _, bxIdx, _, tIdx, htm, hW⟩ := h
    obtain ⟨h1, h2, h3, _⟩ := v06_thread_W_digits nvu m n ldc byIdx bxIdx tIdx o
      hnvu hn hldc htm hW
    exact ⟨o / ldc, o % ldc, h1, h2, h3⟩
  · rintro ⟨i, j, hi, hj, rfl⟩
    simp only [v06_total_W, List.any_eq_true, List.mem_range]
    refine ⟨i / 128, ?_, j / 128, ?_,
      (i % 128 / 64 * 4 + j % 128 / 32) * 32 + (i % 64 / 8 * 4 + j % 32 / 8), ?_, ?_⟩
    · rw [launch_grid_dim_snd m n hm32]
      omega
    · rw [launch_grid_dim_fst m n hn32]
      omega
    · show _ < 256
      omega
    · simp only [v06_thread_W, List.any_eq_true, List.mem_range]
      refine ⟨i % 8, ?_, j % 8 / nvu, ?_, ?_⟩
      · show i % 8 < 8
        omega
      · show j % 8 / nvu < 8 / nvu
        rcases hnvu with rfl | rfl | rfl | rfl <;> omega
      · simp only [v06_W, decide_eq_true_eq, v06_C_row_idx_eq, v06_C_col_idx_eq]
        have e1 : NUM_WARPS_X = 4 := rfl
        have e2 : NUM_THREADS_PER_WARP_X = 4 := rfl
        rw [e1, e2]
        have hrow : i / 128 * 128 +
            ((i % 128 / 64 * 4 + j % 128 / 32) * 32 + (i % 64 / 8 * 4 + j % 32 / 8)) / 32 / 4 * 64 +
            0 * 64 +
            ((i % 128 / 64 * 4 + j % 128 / 32) * 32 + (i % 64 / 8 * 4 + j % 32 / 8)) % 32 / 4 * 8 +
            i % 8 = i := by omega
        rw [hrow]
        refine ⟨hi, ?_, ?_, ?_⟩ <;> rcases hnvu with rfl | rfl | rfl | rfl <;> omega

/-- Main v06 value lemma: on vector-aligned column counts (`nvu ∣ n`), with a
valid leading dimension and no grid-size overflow, every valid element of C
receives exactly `alpha * (A·B)[i][j] + beta * C_original[i][j]`. -/
theorem v06_mem_valid {R : Type} [CommRing R] (nvu m n k lda ldb ldc : ℕ)
    (alpha beta : R) (A B : ℕ → ℕ → R) (st : CMem R)
    (hnvu8 : nvu ∣ 8) (hnvu0 : 0 < nvu) (hn : nvu ∣ n) (hldc : n ≤ ldc)
    (hm32 : m + 127 < 4294967296) (hn32 : n + 127 < 4294967296)
    (i j : ℕ) (hi : i < m) (hj : j < n) :
    (launch_gemm_kernel_v06_vectorized nvu m n k alpha A lda B ldb beta st ldc).mem
        (i * ldc + j)
      = alpha * (∑ p ∈ Finset.range k, A i p * B p j) + beta * st.mem (i * ldc + j) := by
  have hnvu := nvu_cases nvu hnvu8 hnvu0
  have hU := gemm_v06_vectorized_updates nvu m n k lda ldb ldc
    (launch_grid_dim m n).1 (launch_grid_dim m n).2.1 alpha beta A B hnvu hn hldc
  have hW : v06_total_W nvu m n ldc (launch_grid_dim m n).1 (launch_grid_dim m n).2.1
      (i * ldc + j) = true :=
    (v06_total_W_iff nvu m n ldc hnvu hn hldc hm32 hn32 (i * ldc + j)).mpr
      ⟨i, j, hi, hj, rfl⟩
  have hm := (hU st (i * ldc + j)).1
  rw [hW, if_pos rfl] at hm
  rw [show launch_gemm_kernel_v06_vectorized nvu m n k alpha A lda B ldb beta st ldc =
    gemm_v06_vectorized nvu m n k alpha A lda B ldb beta ldc
      (launch_grid_dim m n).1 (launch_grid_dim m n).2.1 st from rfl]
  rw [hm]
  have hdm := offset_div_mod ldc i j (lt_of_lt_of_le hj hldc)
  simp only [v06_g, hdm.1, hdm.2]

/-- Frame lemma: v06 leaves every offset outside the valid positions of C
untouched (both content and touched flag). -/
theorem v06_frame {R : Type} [CommRing R] (nvu m n k lda ldb ldc : ℕ)
    (alpha beta : R) (A B : ℕ → ℕ → R) (st : CMem R)
    (hnvu8 : nvu ∣ 8) (hnvu0 : 0 < nvu) (hn : nvu ∣ n) (hldc : n ≤ ldc)
    (hm32 : m + 127 < 4294967296) (hn32 : n + 127 < 4294967296)
    (o : ℕ) (ho : ∀ i j, i < m → j < n → o ≠ i * ldc + j) :
    (launch_gemm_kernel_v06_vectorized nvu m n k alpha A lda B ldb beta st ldc).mem o
        = st.mem o ∧
    (launch_gemm_kernel_v06_vectorized nvu m n k alpha A lda B ldb beta st ldc).touched o
        = st.touched o := by
  have hnvu := nvu_cases nvu hnvu8 hnvu0
  have hU := gemm_v06_vectorized_updates nvu m n k lda ldb ldc
    (launch_grid_dim m n).1 (launch_grid_dim m n).2.1 alpha beta A B hnvu hn hldc
  have hW : v06_total_W nvu m n ldc (launch_grid_dim m n).1 (launch_grid_dim m n).2.1
      o = false := by
    rcases hWt : v06_total_W nvu m n ldc (launch_grid_dim m n).1
      (launch_grid_dim m n).2.1 o with _ | _
    · rfl
    · obtain ⟨i, j, hi, hj, hoe⟩ :=
        (v06_total_W_iff nvu m n ldc hnvu hn hldc hm32 hn32 o).mp hWt
      exact absurd hoe (ho i j hi hj)
  have h1 := (hU st o).1
  have h2 := (hU st o).2
  rw [hW] at h1 h2
  simp only [Bool.false_eq_true, if_false, Bool.false_or] at h1 h2
  exact ⟨h1, h2⟩

/-- Touched-set lemma: with the launched grid, the offsets v06 reads and
writes in C are exactly the valid positions (plus whatever was already
marked). -/
theorem v06_touched_iff {R : Type} [CommRing R] (nvu m n k lda ldb ldc : ℕ)
    (alpha beta : R) (A B : ℕ → ℕ → R) (st : CMem R)
    (hnvu8 : nvu ∣ 8) (hnvu0 : 0 < nvu) (hn : nvu ∣ n) (hldc : n ≤ ldc)
    (hm32 : m + 127 < 4294967296) (hn32 : n + 127 < 4294967296) (o : ℕ) :
    (launch_gemm_kernel_v06_vectorized nvu m n k alpha A lda B ldb beta st ldc).touched o
        = true ↔
      ((∃ i j, i < m ∧ j < n ∧ o = i * ldc + j) ∨ st.touched o = true) := by
  have hnvu := nvu_cases nvu hnvu8 hnvu0
  have hU := gemm_v06_vectorized_updates nvu m n k lda ldb ldc
    (launch_grid_dim m n).1 (launch_grid_dim m n).2.1 alpha beta A B hnvu hn hldc
  have h2 := (hU st o).2
  rw [show (launch_gemm_kernel_v06_vectorized nvu m n k alpha A lda B ldb beta st ldc) =
    gemm_v06_vectorized nvu m n k alpha A lda B ldb beta ldc
      (launch_grid_dim m n).1 (launch_grid_dim m n).2.1 st from rfl]
  rw [h2, Bool.or_eq_true]
  rw [← v06_total_W_iff nvu m n ldc hnvu hn hldc hm32 hn32 o]

/-! ## The matrix-unit kernel `gemm_v07_vectorized` (lines 20-190)

The `nvcuda::wmma` fragment primitives are an external library (not part of
`src/`); they are modelled from the spec (§4.3 and glossary: "Fragment
multiply-accumulate: a single hardware instruction that multiplies two small
fixed-size operand tiles and accumulates into a third"): a `matrix_a`
`col_major` fragment loaded from pointer `p` with leading dimension `ldm`
holds `a(i,j) = p[i + j*ldm]`, a `matrix_b` `row_major` fragment holds
`b(i,j) = p[i*ldm + j]`, `mma_sync` performs `acc += a*b` as a 16×16×16 matrix
product, and `load_matrix_sync`/`store_matrix_sync` with `mem_row_major` move
a 16×16 accumulator fragment to/from memory at the given leading dimension,
with elementwise fragment arithmetic acting on corresponding elements.
Fragment operations are warp-collective, so the model iterates over the
`NUM_WARPS_V07` warps of each block. -/

/-- The `matrix_a` fragment `a_frags[wRow]` for reduction step `k_i` of tile
`tileIdx` (lines 114-121): loaded `col_major` from
`&A_thread_block_tile_transposed[k_i * WMMA_TILE_SIZE_K][warpRow * WARP_TILE_SIZE_Y
+ wRow * WMMA_TILE_SIZE_Y]` with leading dimension `BLOCK_TILE_SIZE_Y +
BLOCK_TILE_SKEW_SIZE_Y`, so element `(i, j)` is the shared entry at reduction
step `k_i * WMMA_TILE_SIZE_K + j`, row offset `warpRow * WARP_TILE_SIZE_Y +
wRow * WMMA_TILE_SIZE_Y + i` (the skewed stride walks one shared-memory row
per column index). -/
def v07_a_frag {R : Type} [Zero R] (A : ℕ → ℕ → R)
    (m k byIdx tileIdx k_i warpRowIdx wRow i j : ℕ) : R :=
  A_thread_block_tile_transposed A m k byIdx tileIdx (k_i * WMMA_TILE_SIZE_K + j)
    (warpRowIdx * WARP_TILE_SIZE_Y + wRow * WMMA_TILE_SIZE_Y + i)

/-- The `matrix_b` fragment `b_frags[wCol]` for reduction step `k_i` of tile
`tileIdx` (lines 128-134): loaded `row_major` from
`&B_thread_block_tile[k_i * WMMA_TILE_SIZE_K][warpCol * WARP_TILE_SIZE_X +
wCol * WMMA_TILE_SIZE_Y]` (the source uses `WMMA_TILE_SIZE_Y` in this column
offset; it equals `WMMA_TILE_SIZE_X` at the launched configuration), so
element `(i, j)` is the shared entry at reduction step
`k_i * WMMA_TILE_SIZE_K + i`, column offset `warpCol * WARP_TILE_SIZE_X +
wCol * WMMA_TILE_SIZE_Y + j`. -/
def v07_b_frag {R : Type} [Zero R] (B : ℕ → ℕ → R)
    (n k bxIdx tileIdx k_i warpColIdx wCol i j : ℕ) : R :=
  B_thread_block_tile B n k bxIdx tileIdx (k_i * WMMA_TILE_SIZE_K + i)
    (warpColIdx * WARP_TILE_SIZE_X + wCol * WMMA_TILE_SIZE_Y + j)

/-- The accumulator fragments `acc_frags` of a warp after the whole reduction
loop (lines 58-146): zero-filled (`fill_fragment`, lines 59-70), then for each
reduction tile and each `k_i < NUM_WMMA_TILES_K`, every fragment
`acc_frags[wRow][wCol]` gains the `mma_sync` product of the operand fragments
(lines 107-143). -/
def v07_acc_frags {R : Type} [AddCommMonoid R] [Mul R] (A B : ℕ → ℕ → R)
    (m n k byIdx bxIdx warpRowIdx warpColIdx : ℕ) : ℕ → ℕ → ℕ → ℕ → R :=
  (List.range (num_thread_block_tiles k)).foldl
    (fun acc tileIdx =>
      (List.range NUM_WMMA_TILES_K).foldl
        (fun acc k_i => fun wRow wCol fr fc =>
          acc wRow wCol fr fc +
            ∑ kk ∈ Finset.range WMMA_TILE_SIZE_K,
              v07_a_frag A m k byIdx tileIdx k_i warpRowIdx wRow fr kk *
                v07_b_frag B n k bxIdx tileIdx k_i warpColIdx wCol kk fc)
        acc)
    (fun _ _ _ _ => 0)

/-- The write-back row base of fragment `(wRow, wCol)` of a warp
(lines 162-164 and 180-182). -/
def v07_row_base (byIdx warpIdx wRow : ℕ) : ℕ :=
  byIdx * BLOCK_TILE_SIZE_Y + warpIdx / NUM_WARPS_X * WARP_TILE_SIZE_Y +
    wRow * WMMA_TILE_SIZE_Y

/-- The write-back column base of fragment `(wRow, wCol)` of a warp
(lines 166-168 and 184-186). -/
def v07_col_base (bxIdx warpIdx wCol : ℕ) : ℕ :=
  bxIdx * BLOCK_TILE_SIZE_X + warpIdx % NUM_WARPS_X * WARP_TILE_SIZE_X +
    wCol * WMMA_TILE_SIZE_X

/-- One fragment write-back of v07 (lines 158-188): `load_matrix_sync` reads
the 16×16 fragment of C at `&C[rowBase * n + colBase]` with leading dimension
`n` (the source addresses C through `n`, not `ldc`), each element is blended
as `alpha * acc + beta * c` (lines 171-177), and `store_matrix_sync` writes
the fragment back to the same addresses.  There is no bounds check.  An
offset `o` belongs to the fragment when `o = rowBase * n + colBase + fr * n +
fc` with `fr, fc < 16`; for `n ≥ 16` the recovery `fr = d / n`, `fc = d % n`
of the model is exact and unique. -/
def v07_frag_store {R : Type} [Mul R] [AddCommMonoid R] (n : ℕ) (alpha beta : R)
    (accf : ℕ → ℕ → R) (rowBase colBase : ℕ) (st : CMem R) : CMem R :=
  { mem := fun o =>
      if rowBase * n + colBase ≤ o ∧
          (o - (rowBase * n + colBase)) / n < WMMA_TILE_SIZE_Y ∧
          (o - (rowBase * n + colBase)) % n < WMMA_TILE_SIZE_X then
        alpha * accf ((o - (rowBase * n + colBase)) / n)
            ((o - (rowBase * n + colBase)) % n) + beta * st.mem o
      else st.mem o,
    touched := fun o =>
      decide (rowBase * n + colBase ≤ o ∧
          (o - (rowBase * n + colBase)) / n < WMMA_TILE_SIZE_Y ∧
          (o - (rowBase * n + colBase)) % n < WMMA_TILE_SIZE_X) || st.touched o }

/-- The body of `gemm_v07_vectorized` for the warp with linear index
`warpIdx` of block `(bxIdx, byIdx)`: the warp decomposition of lines 72-75,
the fragment accumulation loop (summarized by `v07_acc_frags`) and the
write-back loops of lines 150-189 in program order. -/
def gemm_v07_warp {R : Type} [Mul R] [AddCommMonoid R] (m n k : ℕ) (alpha : R)
    (A B : ℕ → ℕ → R) (beta : R) (byIdx bxIdx warpIdx : ℕ) (st : CMem R) : CMem R :=
  let warp_row_idx := warpIdx / NUM_WARPS_X
  let warp_col_idx := warpIdx % NUM_WARPS_X
  let acc := v07_acc_frags A B m n k byIdx bxIdx warp_row_idx warp_col_idx
  (List.range NUM_WMMA_TILES_Y).foldl (fun st wRow =>
    (List.range NUM_WMMA_TILES_X).foldl (fun st wCol =>
      v07_frag_store n alpha beta (acc wRow wCol)
        (v07_row_base byIdx warpIdx wRow) (v07_col_base bxIdx warpIdx wCol) st) st) st

/-- Execution of the `gemm_v07_vectorized` grid: every block of the
`gridX × gridY` grid runs `NUM_WARPS_V07` warps.  `lda`, `ldb` address A and B
inside the staging loader (see the module docstring); `ldc` is accepted but
never used: the kernel addresses C through `n` (lines 162-187). -/
def gemm_v07_vectorized {R : Type} [Mul R] [AddCommMonoid R] (m n k : ℕ)
    (alpha : R) (A : ℕ → ℕ → R) (lda : ℕ) (B : ℕ → ℕ → R) (ldb : ℕ) (beta : R)
    (ldc gridX gridY : ℕ) (st : CMem R) : CMem R :=
  (List.range gridY).foldl (fun st byIdx =>
    (List.range gridX).foldl (fun st bxIdx =>
      (List.range NUM_WARPS_V07).foldl (fun st warpIdx =>
        gemm_v07_warp m n k alpha A B beta byIdx bxIdx warpIdx st) st) st) st

/-- `launch_gemm_kernel_v07_vectorized` (lines 192-237): computes the grid
dimensions (32-bit unsigned arithmetic, same formula as v06) and launches the
kernel; `alpha` and `beta` are already dereferenced (line 234). -/
def launch_gemm_kernel_v07_vectorized {R : Type} [Mul R] [AddCommMonoid R]
    (m n k : ℕ) (alpha : R) (A : ℕ → ℕ → R) (lda : ℕ) (B : ℕ → ℕ → R) (ldb : ℕ)
    (beta : R) (st : CMem R) (ldc : ℕ) : CMem R :=
  gemm_v07_vectorized m n k alpha A lda B ldb beta ldc
    (launch_grid_dim m n).1 (launch_grid_dim m n).2.1 st

/-! ## Characterizing the v07 write-back -/

/-- The offsets accessed by one fragment write-back of v07 (no guard exists
in the source: the predicate is exactly the address range of the fragment). -/
def v07_W (n byIdx bxIdx warpIdx wRow wCol o : ℕ) : Bool :=
  decide (v07_row_base byIdx warpIdx wRow * n + v07_col_base bxIdx warpIdx wCol ≤ o ∧
    (o - (v07_row_base byIdx warpIdx wRow * n + v07_col_base bxIdx warpIdx wCol)) / n
      < WMMA_TILE_SIZE_Y ∧
    (o - (v07_row_base byIdx warpIdx wRow * n + v07_col_base bxIdx warpIdx wCol)) % n
      < WMMA_TILE_SIZE_X)

/-- On block-tile-multiple dimensions, an offset accessed by a v07 fragment
write-back lies at a valid position of C and determines all fragment
indices. -/
theorem v07_W_digits (m n byIdx bxIdx warpIdx wRow wCol o : ℕ)
    (hm128 : 128 ∣ m) (hn128 : 128 ∣ n)
    (hby : byIdx < (m + 127) / 128) (hbx : bxIdx < (n + 127) / 128)
    (hw : warpIdx < NUM_WARPS_V07) (hwR : wRow < NUM_WMMA_TILES_Y)
    (hwC : wCol < NUM_WMMA_TILES_X)
    (hW : v07_W n byIdx bxIdx warpIdx wRow wCol o = true) :
    o / n < m ∧ o % n < n ∧ o = o / n * n + o % n ∧
    byIdx = o / n / 128 ∧ bxIdx = o % n / 128 ∧
    warpIdx = o / n % 128 / 64 * 4 + o % n % 128 / 32 ∧
    wRow = o / n % 64 / 16 ∧ wCol = o % n % 32 / 16 := by
  have hw8 : warpIdx < 8 := hw
  have hwR4 : wRow < 4 := hwR
  have hwC2 : wCol < 2 := hwC
  have hbm : byIdx * 128 + 128 ≤ m := by
    obtain ⟨q, rfl⟩ := hm128
    omega
  have hbn : bxIdx * 128 + 128 ≤ n := by
    obtain ⟨q, rfl⟩ := hn128
    omega
  have hrb : v07_row_base byIdx warpIdx wRow
      = byIdx * 128 + warpIdx / 4 * 64 + wRow * 16 := rfl
  have hcb : v07_col_base bxIdx warpIdx wCol
      = bxIdx * 128 + warpIdx % 4 * 32 + wCol * 16 := rfl
  have h16Y : WMMA_TILE_SIZE_Y = 16 := rfl
  have h16X : WMMA_TILE_SIZE_X = 16 := rfl
  simp only [v07_W, decide_eq_true_eq, hrb, hcb, h16Y, h16X] at hW
  obtain ⟨hle, hdiv, hmod⟩ := hW
  obtain ⟨fr, hfr16, fc, hfc16, rfl⟩ : ∃ fr, fr < 16 ∧ ∃ fc, fc < 16 ∧
      o = (byIdx * 128 + warpIdx / 4 * 64 + wRow * 16 + fr) * n +
        (bxIdx * 128 + warpIdx % 4 * 32 + wCol * 16 + fc) := by
    refine ⟨_, hdiv, _, hmod, ?_⟩
    have hdam := Nat.div_add_mod
      (o - ((byIdx * 128 + warpIdx / 4 * 64 + wRow * 16) * n +
        (bxIdx * 128 + warpIdx % 4 * 32 + wCol * 16))) n
    have hexp : (byIdx * 128 + warpIdx / 4 * 64 + wRow * 16 +
        (o - ((byIdx * 128 + warpIdx / 4 * 64 + wRow * 16) * n +
          (bxIdx * 128 + warpIdx % 4 * 32 + wCol * 16))) / n) * n
        = (byIdx * 128 + warpIdx / 4 * 64 + wRow * 16) * n +
          n * ((o - ((byIdx * 128 + warpIdx / 4 * 64 + wRow * 16) * n +
            (bxIdx * 128 + warpIdx % 4 * 32 + wCol * 16))) / n) := by
      ring
    omega
  have hcbfc : bxIdx * 128 + warpIdx % 4 * 32 + wCol * 16 + fc < n := by
    omega
  have hdm := offset_div_mod n (byIdx * 128 + warpIdx / 4 * 64 + wRow * 16 + fr)
    (bxIdx * 128 + warpIdx % 4 * 32 + wCol * 16 + fc) hcbfc
  rw [hdm.1, hdm.2]
  refine ⟨?_, ?_, ?_, ?_, ?_, ?_, ?_, ?_⟩ <;> omega

/-- Companion to `v07_W_digits`: the division recovery of the fragment
coordinates in the form used by the store. -/
theorem v07_W_split (m n byIdx bxIdx warpIdx wRow wCol o : ℕ)
    (hm128 : 128 ∣ m) (hn128 : 128 ∣ n)
    (hby : byIdx < (m + 127) / 128) (hbx : bxIdx < (n + 127) / 128)
    (hw : warpIdx < NUM_WARPS_V07) (hwR : wRow < NUM_WMMA_TILES_Y)
    (hwC : wCol < NUM_WMMA_TILES_X)
    (hW : v07_W n byIdx bxIdx warpIdx wRow wCol o = true) :
    o / n = v07_row_base byIdx warpIdx wRow +
      (o - (v07_row_base byIdx warpIdx wRow * n + v07_col_base bxIdx warpIdx wCol)) / n ∧
    o % n = v07_col_base bxIdx warpIdx wCol +
      (o - (v07_row_base byIdx warpIdx wRow * n + v07_col_base bxIdx warpIdx wCol)) % n := by
  have hw8 : warpIdx < 8 := hw
  have hwR4 : wRow < 4 := hwR
  have hwC2 : wCol < 2 := hwC
  have hbn : bxIdx * 128 + 128 ≤ n := by
    obtain ⟨q, rfl⟩ := hn128
    omega
  have hrb : v07_row_base byIdx warpIdx wRow
      = byIdx * 128 + warpIdx / 4 * 64 + wRow * 16 := rfl
  have hcb : v07_col_base bxIdx warpIdx wCol
      = bxIdx * 128 + warpIdx % 4 * 32 + wCol * 16 := rfl
  have h16Y : WMMA_TILE_SIZE_Y = 16 := rfl
  have h16X : WMMA_TILE_SIZE_X = 16 := rfl
  simp only [v07_W, decide_eq_true_eq, hrb, hcb, h16Y, h16X] at hW
  obtain ⟨hle, hdiv, hmod⟩ := hW
  rw [hrb, hcb]
  obtain ⟨fr, hfr16, fc, hfc16, rfl⟩ : ∃ fr, fr < 16 ∧ ∃ fc, fc < 16 ∧
      o = (byIdx * 128 + warpIdx / 4 * 64 + wRow * 16 + fr) * n +
        (bxIdx * 128 + warpIdx % 4 * 32 + wCol * 16 + fc) := by
    refine ⟨_, hdiv, _, hmod, ?_⟩
    have hdam := Nat.div_add_mod
      (o - ((byIdx * 128 + warpIdx / 4 * 64 + wRow * 16) * n +
        (bxIdx * 128 + warpIdx % 4 * 32 + wCol * 16))) n
    have hexp : (byIdx * 128 + warpIdx / 4 * 64 + wRow * 16 +
        (o - ((byIdx * 128 + warpIdx / 4 * 64 + wRow * 16) * n +
          (bxIdx * 128 + warpIdx % 4 * 32 + wCol * 16))) / n) * n
        = (byIdx * 128 + warpIdx / 4 * 64 + wRow * 16) * n +
          n * ((o - ((byIdx * 128 + warpIdx / 4 * 64 + wRow * 16) * n +
            (bxIdx * 128 + warpIdx % 4 * 32 + wCol * 16))) / n) := by
      ring
    omega
  have hcbfc : bxIdx * 128 + warpIdx % 4 * 32 + wCol * 16 + fc < n := by
    omega
  have hdm := offset_div_mod n (byIdx * 128 + warpIdx / 4 * 64 + wRow * 16 + fr)
    (bxIdx * 128 + warpIdx % 4 * 32 + wCol * 16 + fc) hcbfc
  rw [hdm.1, hdm.2]
  have hdist : (byIdx * 128 + warpIdx / 4 * 64 + wRow * 16 + fr) * n
      = (byIdx * 128 + warpIdx / 4 * 64 + wRow * 16) * n + fr * n := by
    ring
  have hsub : (byIdx * 128 + warpIdx / 4 * 64 + wRow * 16 + fr) * n +
      (bxIdx * 128 + warpIdx % 4 * 32 + wCol * 16 + fc) -
      ((byIdx * 128 + warpIdx / 4 * 64 + wRow * 16) * n +
        (bxIdx * 128 + warpIdx % 4 * 32 + wCol * 16)) = fr * n + fc := by
    omega
  rw [hsub]
  have hdm2 := offset_div_mod n fr fc (by omega)
  rw [hdm2.1, hdm2.2]
  omega

/-- The accumulator fragment entry of a v07 warp is the double sum of the
staged products over all reduction tiles and steps. -/
theorem v07_acc_frags_apply {R : Type} [CommRing R] (A B : ℕ → ℕ → R)
    (m n k byIdx bxIdx warpRowIdx warpColIdx wRow wCol fr fc : ℕ) :
    v07_acc_frags A B m n k byIdx bxIdx warpRowIdx warpColIdx wRow wCol fr fc
      = ∑ t ∈ Finset.range (num_thread_block_tiles k),
          ∑ kk ∈ Finset.range BLOCK_TILE_SIZE_K,
            A_thread_block_tile_transposed A m k byIdx t kk
              (warpRowIdx * WARP_TILE_SIZE_Y + wRow * WMMA_TILE_SIZE_Y + fr) *
            B_thread_block_tile B n k bxIdx t kk
              (warpColIdx * WARP_TILE_SIZE_X + wCol * WMMA_TILE_SIZE_Y + fc) := by
  unfold v07_acc_frags
  rw [foldl_foldl_fun_add_apply]
  show (0 : R) + _ = _
  rw [zero_add]
  refine Finset.sum_congr rfl (fun t _ => ?_)
  rw [show NUM_WMMA_TILES_K = 1 from rfl, Finset.sum_range_one]
  refine Finset.sum_congr rfl (fun kk _ => ?_)
  simp only [v07_a_frag, v07_b_frag, Nat.zero_mul, Nat.zero_add]

/-- One fragment write-back of v07, with the accumulator of the owning warp,
updates exactly its `v07_W` offsets, rewriting each with the reference blend
(`v06_g` with leading dimension `n`: the kernel addresses C through `n`). -/
theorem v07_frag_store_updates {R : Type} [CommRing R] (m n k : ℕ)
    (alpha beta : R) (A B : ℕ → ℕ → R) (byIdx bxIdx warpIdx wRow wCol : ℕ)
    (hm128 : 128 ∣ m) (hn128 : 128 ∣ n)
    (hby : byIdx < (m + 127) / 128) (hbx : bxIdx < (n + 127) / 128)
    (hw : warpIdx < NUM_WARPS_V07) (hwR : wRow < NUM_WMMA_TILES_Y)
    (hwC : wCol < NUM_WMMA_TILES_X) :
    Updates (fun st => v07_frag_store n alpha beta
        (v07_acc_frags A B m n k byIdx bxIdx (warpIdx / NUM_WARPS_X)
          (warpIdx % NUM_WARPS_X) wRow wCol)
        (v07_row_base byIdx warpIdx wRow) (v07_col_base bxIdx warpIdx wCol) st)
      (v07_W n byIdx bxIdx warpIdx wRow wCol)
      (v06_g k n alpha beta A B) := by
  intro st o
  by_cases hr : v07_row_base byIdx warpIdx wRow * n + v07_col_base bxIdx warpIdx wCol ≤ o ∧
      (o - (v07_row_base byIdx warpIdx wRow * n + v07_col_base bxIdx warpIdx wCol)) / n
        < WMMA_TILE_SIZE_Y ∧
      (o - (v07_row_base byIdx warpIdx wRow * n + v07_col_base bxIdx warpIdx wCol)) % n
        < WMMA_TILE_SIZE_X
  · have hW : v07_W n byIdx bxIdx warpIdx wRow wCol o = true := by
      simp only [v07_W, decide_eq_true_eq]
      exact hr
    obtain ⟨h1, h2, _⟩ := v07_W_digits m n byIdx bxIdx warpIdx wRow wCol o
      hm128 hn128 hby hbx hw hwR hwC hW
    obtain ⟨hs1, hs2⟩ := v07_W_split m n byIdx bxIdx warpIdx wRow wCol o
      hm128 hn128 hby hbx hw hwR hwC hW
    have hrA : byIdx * BLOCK_TILE_SIZE_Y +
        (warpIdx / NUM_WARPS_X * WARP_TILE_SIZE_Y + wRow * WMMA_TILE_SIZE_Y +
          (o - (v07_row_base byIdx warpIdx wRow * n +
            v07_col_base bxIdx warpIdx wCol)) / n) = o / n := by
      rw [hs1]
      simp only [v07_row_base, BLOCK_TILE_SIZE_Y, WARP_TILE_SIZE_Y, WMMA_TILE_SIZE_Y,
        NUM_WARPS_X, BLOCK_TILE_SIZE_X, WARP_TILE_SIZE_X]
      omega
    have hcB : bxIdx * BLOCK_TILE_SIZE_X +
        (warpIdx % NUM_WARPS_X * WARP_TILE_SIZE_X + wCol * WMMA_TILE_SIZE_Y +
          (o - (v07_row_base byIdx warpIdx wRow * n +
            v07_col_base bxIdx warpIdx wCol)) % n) = o % n := by
      rw [hs2]
      simp only [v07_col_base, BLOCK_TILE_SIZE_X, WARP_TILE_SIZE_X, WMMA_TILE_SIZE_X,
        WMMA_TILE_SIZE_Y, NUM_WARPS_X, BLOCK_TILE_SIZE_Y]
      omega
    constructor
    · simp only [v07_frag_store]
      rw [hW]
      simp only [if_true]
      rw [if_pos hr, v07_acc_frags_apply]
      rw [acc_double_sum_eq A B m n k byIdx bxIdx _ _ (o / n) (o % n) hrA hcB h1 h2]
      rfl
    · simp only [v07_frag_store]
      rw [hW]
      simp only [Bool.true_or]
      rw [decide_eq_true hr]
      simp
  · have hW : v07_W n byIdx bxIdx warpIdx wRow wCol o = false := by
      simp only [v07_W, decide_eq_false_iff_not]
      exact hr
    constructor
    · simp only [v07_frag_store]
      rw [hW]
      simp only [Bool.false_eq_true, if_false]
      rw [if_neg hr]
    · simp only [v07_frag_store]
      rw [hW, decide_eq_false hr]

/-- Offsets accessed by one whole warp of v07 (all of its output fragments). -/
def v07_warp_W (n byIdx bxIdx warpIdx o : ℕ) : Bool :=
  (List.range NUM_WMMA_TILES_Y).any fun wRow =>
    (List.range NUM_WMMA_TILES_X).any fun wCol =>
      v07_W n byIdx bxIdx warpIdx wRow wCol o

/-- A warp of a v07 block performs a disjoint read-modify-write over its
`v07_warp_W` offsets, blending each with the reference blend. -/
theorem gemm_v07_warp_updates {R : Type} [CommRing R] (m n k : ℕ)
    (alpha beta : R) (A B : ℕ → ℕ → R) (byIdx bxIdx warpIdx : ℕ)
    (hm128 : 128 ∣ m) (hn128 : 128 ∣ n)
    (hby : byIdx < (m + 127) / 128) (hbx : bxIdx < (n + 127) / 128)
    (hw : warpIdx < NUM_WARPS_V07) :
    Updates (fun st => gemm_v07_warp m n k alpha A B beta byIdx bxIdx warpIdx st)
      (v07_warp_W n byIdx bxIdx warpIdx) (v06_g k n alpha beta A B) := by
  have hU : Updates (fun st => (List.range NUM_WMMA_TILES_Y).foldl (fun st wRow =>
      (List.range NUM_WMMA_TILES_X).foldl (fun st wCol =>
        v07_frag_store n alpha beta
          (v07_acc_frags A B m n k byIdx bxIdx (warpIdx / NUM_WARPS_X)
            (warpIdx % NUM_WARPS_X) wRow wCol)
          (v07_row_base byIdx warpIdx wRow) (v07_col_base bxIdx warpIdx wCol) st) st) st)
      (fun o => (List.range NUM_WMMA_TILES_Y).any fun wRow =>
        (List.range NUM_WMMA_TILES_X).any fun wCol =>
          v07_W n byIdx bxIdx warpIdx wRow wCol o)
      (v06_g k n alpha beta A B) := by
    refine updates_foldl _ _ _ _ ?_ ?_
    · intro wRow hwR
      rw [List.mem_range] at hwR
      refine updates_foldl _ _ _ _ ?_ ?_
      · intro wCol hwC
        rw [List.mem_range] at hwC
        exact v07_frag_store_updates m n k alpha beta A B byIdx bxIdx warpIdx wRow wCol
          hm128 hn128 hby hbx hw hwR hwC
      · refine pairwise_range_of _ _ ?_
        intro a b ha hb hab o h1 h2
        have d1 := v07_W_digits m n byIdx bxIdx warpIdx wRow a o
          hm128 hn128 hby hbx hw hwR ha h1
        have d2 := v07_W_digits m n byIdx bxIdx warpIdx wRow b o
          hm128 hn128 hby hbx hw hwR hb h2
        omega
    · refine pairwise_range_of _ _ ?_
      intro a b ha hb hab o h1 h2
      rw [List.any_eq_true] at h1 h2
      obtain ⟨c1, hc1, h1⟩ := h1
      obtain ⟨c2, hc2, h2⟩ := h2
      have d1 := v07_W_digits m n byIdx bxIdx warpIdx a c1 o
        hm128 hn128 hby hbx hw ha (List.mem_range.mp hc1) h1
      have d2 := v07_W_digits m n byIdx bxIdx warpIdx b c2 o
        hm128 hn128 hby hbx hw hb (List.mem_range.mp hc2) h2
      omega
  exact hU

/-- Full digit characterization of an offset accessed by a v07 warp. -/
theorem v07_warp_W_digits (m n byIdx bxIdx warpIdx o : ℕ)
    (hm128 : 128 ∣ m) (hn128 : 128 ∣ n)
    (hby : byIdx < (m + 127) / 128) (hbx : bxIdx < (n + 127) / 128)
    (hw : warpIdx < NUM_WARPS_V07)
    (h : v07_warp_W n byIdx bxIdx warpIdx o = true) :
    o / n < m ∧ o % n < n ∧ o = o / n * n + o % n ∧
    byIdx = o / n / 128 ∧ bxIdx = o % n / 128 ∧
    warpIdx = o / n % 128 / 64 * 4 + o % n % 128 / 32 := by
  simp only [v07_warp_W, List.any_eq_true, List.mem_range] at h
  obtain ⟨wRow, hwR, wCol, hwC, hW⟩ := h
  obtain ⟨h1, h2, h3, h4, h5, h6, _⟩ := v07_W_digits m n byIdx bxIdx warpIdx wRow wCol o
    hm128 hn128 hby hbx hw hwR hwC hW
  exact ⟨h1, h2, h3, h4, h5, h6⟩

/-- Offsets accessed by the whole v07 grid. -/
def v07_total_W (n gridX gridY o : ℕ) : Bool :=
  (List.range gridY).any fun byIdx =>
    (List.range gridX).any fun bxIdx =>
      (List.range NUM_WARPS_V07).any fun warpIdx =>
        v07_warp_W n byIdx bxIdx warpIdx o

/-- On block-tile-multiple dimensions (the domain where its unguarded
write-back is well defined), the v07 grid performs a disjoint
read-modify-write over its `v07_total_W` offsets, blending each one with the
reference blend applied to the original content of C. -/
theorem gemm_v07_vectorized_updates {R : Type} [CommRing R]
    (m n k lda ldb ldc gridX gridY : ℕ) (alpha beta : R) (A B : ℕ → ℕ → R)
    (hm128 : 128 ∣ m) (hn128 : 128 ∣ n)
    (hgx : gridX ≤ (n + 127) / 128) (hgy : gridY ≤ (m + 127) / 128) :
    Updates
      (fun st => gemm_v07_vectorized m n k alpha A lda B ldb beta ldc gridX gridY st)
      (v07_total_W n gridX gridY) (v06_g k n alpha beta A B) := by
  have hU : Updates
      (fun st => (List.range gridY).foldl (fun st byIdx =>
        (List.range gridX).foldl (fun st bxIdx =>
          (List.range NUM_WARPS_V07).foldl (fun st warpIdx =>
            gemm_v07_warp m n k alpha A B beta byIdx bxIdx warpIdx st) st) st) st)
      (fun o => (List.range gridY).any fun byIdx =>
        (List.range gridX).any fun bxIdx =>
          (List.range NUM_WARPS_V07).any fun warpIdx =>
            v07_warp_W n byIdx bxIdx warpIdx o)
      (v06_g k n alpha beta A B) := by
    refine updates_foldl _ _ _ _ ?_ ?_
    · intro byIdx hbym
      rw [List.mem_range] at hbym
      refine updates_foldl _ _ _ _ ?_ ?_
      · intro bxIdx hbxm
        rw [List.mem_range] at hbxm
        refine updates_foldl _ _ _ _ ?_ ?_
        · intro warpIdx hwm
          rw [List.mem_range] at hwm
          exact gemm_v07_warp_updates m n k alpha beta A B byIdx bxIdx warpIdx
            hm128 hn128 (by omega) (by omega) hwm
        · refine pairwise_range_of _ _ ?_
          intro a b ha hb hab o h1 h2
          have d1 := v07_warp_W_digits m n byIdx bxIdx a o hm128 hn128
            (by omega) (by omega) ha h1
          have d2 := v07_warp_W_digits m n byIdx bxIdx b o hm128 hn128
            (by omega) (by omega) hb h2
          omega
      · refine pairwise_range_of _ _ ?_
        intro a b ha hb hab o h1 h2
        rw [List.any_eq_true] at h1 h2
        obtain ⟨w1, hw1, h1⟩ := h1
        obtain ⟨w2, hw2, h2⟩ := h2
        have d1 := v07_warp_W_digits m n byIdx a w1 o hm128 hn128
          (by omega) (by omega) (List.mem_range.mp hw1) h1
        have d2 := v07_warp_W_digits m n byIdx b w2 o hm128 hn128
          (by omega) (by omega) (List.mem_range.mp hw2) h2
        omega
    · refine pairwise_range_of _ _ ?_
      intro a b ha hb hab o h1 h2
      rw [List.any_eq_true] at h1 h2
      obtain ⟨x1, hx1, h1⟩ := h1
      obtain ⟨x2, hx2, h2⟩ := h2
      rw [List.any_eq_true] at h1 h2
      obtain ⟨w1, hw1, h1⟩ := h1
      obtain ⟨w2, hw2, h2⟩ := h2
      have d1 := v07_warp_W_digits m n a x1 w1 o hm128 hn128
        (by omega) (by rw [List.mem_range] at hx1; omega) (List.mem_range.mp hw1) h1
      have d2 := v07_warp_W_digits m n b x2 w2 o hm128 hn128
        (by omega) (by rw [List.mem_range] at hx2; omega) (List.mem_range.mp hw2) h2
      omega
  exact hU

/-- With the launched grid and block-tile-multiple dimensions, the set of
offsets the v07 kernel accesses is exactly the set of valid positions of C
under its `n`-based addressing: offsets `i * n + j`, `i < m`, `j < n`. -/
theorem v07_total_W_iff (m n : ℕ) (hm128 : 128 ∣ m) (hn128 : 128 ∣ n)
    (hm32 : m + 127 < 4294967296) (hn32 : n + 127 < 4294967296) (o : ℕ) :
    v07_total_W n (launch_grid_dim m n).1 (launch_grid_dim m n).2.1 o = true ↔
      ∃ i j, i < m ∧ j < n ∧ o = i * n + j := by
  rw [launch_grid_dim_fst m n hn32, launch_grid_dim_snd m n hm32]
  constructor
  · intro h
    simp only [v07_total_W, List.any_eq_true, List.mem_range] at h
    obtain ⟨byIdx, hbym, bxIdx, hbxm, warpIdx, hwm, hW⟩ := h
    obtain ⟨h1, h2, h3, _⟩ := v07_warp_W_digits m n byIdx bxIdx warpIdx o
      hm128 hn128 hbym hbxm hwm hW
    exact ⟨o / n, o % n, h1, h2, h3⟩
  · rintro ⟨i, j, hi, hj, rfl⟩
    simp only [v07_total_W, List.any_eq_true, List.mem_range]
    refine ⟨i / 128, by omega, j / 128, by omega,
      i % 128 / 64 * 4 + j % 128 / 32, ?_, ?_⟩
    · show _ < 8
      omega
    · simp only [v07_warp_W, List.any_eq_true, List.mem_range]
      refine ⟨i % 64 / 16, ?_, j % 32 / 16, ?_, ?_⟩
      · show _ < 4
        omega
      · show _ < 2
        omega
      · simp only [v07_W, decide_eq_true_eq]
        have hrowb : v07_row_base (i / 128) (i % 128 / 64 * 4 + j % 128 / 32)
            (i % 64 / 16) = i / 16 * 16 := by
          show i / 128 * 128 + (i % 128 / 64 * 4 + j % 128 / 32) / 4 * 64 +
            i % 64 / 16 * 16 = i / 16 * 16
          omega
        have hcolb : v07_col_base (j / 128) (i % 128 / 64 * 4 + j % 128 / 32)
            (j % 32 / 16) = j / 16 * 16 := by
          show j / 128 * 128 + (i % 128 / 64 * 4 + j % 128 / 32) % 4 * 32 +
            j % 32 / 16 * 16 = j / 16 * 16
          omega
        rw [hrowb, hcolb]
        have hn16 : 16 ≤ n := by
          obtain ⟨q, rfl⟩ := hn128
          omega
        have hi16 : i / 16 * 16 ≤ i := Nat.div_mul_le_self i 16
        have hsplit : i * n = i / 16 * 16 * n + (i - i / 16 * 16) * n := by
          rw [← Nat.add_mul]
          congr 1
          omega
        have hsubeq : i * n + j - (i / 16 * 16 * n + j / 16 * 16)
            = (i - i / 16 * 16) * n + (j - j / 16 * 16) := by
          omega
        rw [hsubeq]
        have hjr : j - j / 16 * 16 < n := by
          omega
        have hdm := offset_div_mod n (i - i / 16 * 16) (j - j / 16 * 16) hjr
        rw [hdm.1, hdm.2]
        have h16Y : WMMA_TILE_SIZE_Y = 16 := rfl
        have h16X : WMMA_TILE_SIZE_X = 16 := rfl
        rw [h16Y, h16X]
        refine ⟨by omega, by omega, by omega⟩

/-- Main v07 value lemma: on block-tile-multiple dimensions with no grid-size
overflow, every valid element of C (addressed through `n`) receives exactly
`alpha * (A·B)[i][j] + beta * C_original[i][j]`. -/
theorem v07_mem_valid {R : Type} [CommRing R] (m n k lda ldb ldc : ℕ)
    (alpha beta : R) (A B : ℕ → ℕ → R) (st : CMem R)
    (hm128 : 128 ∣ m) (hn128 : 128 ∣ n)
    (hm32 : m + 127 < 4294967296) (hn32 : n + 127 < 4294967296)
    (i j : ℕ) (hi : i < m) (hj : j < n) :
    (launch_gemm_kernel_v07_vectorized m n k alpha A lda B ldb beta st ldc).mem
        (i * n + j)
      = alpha * (∑ p ∈ Finset.range k, A i p * B p j) + beta * st.mem (i * n + j) := by
  have hU := gemm_v07_vectorized_updates m n k lda ldb ldc
    (launch_grid_dim m n).1 (launch_grid_dim m n).2.1 alpha beta A B hm128 hn128
    (by rw [launch_grid_dim_fst m n hn32]) (by rw [launch_grid_dim_snd m n hm32])
  have hW : v07_total_W n (launch_grid_dim m n).1 (launch_grid_dim m n).2.1
      (i * n + j) = true :=
    (v07_total_W_iff m n hm128 hn128 hm32 hn32 (i * n + j)).mpr ⟨i, j, hi, hj, rfl⟩
  have hm := (hU st (i * n + j)).1
  rw [hW, if_pos rfl] at hm
  rw [show launch_gemm_kernel_v07_vectorized m n k alpha A lda B ldb beta st ldc =
    gemm_v07_vectorized m n k alpha A lda B ldb beta ldc
      (launch_grid_dim m n).1 (launch_grid_dim m n).2.1 st from rfl]
  rw [hm]
  have hdm := offset_div_mod n i j hj
  simp only [v06_g, hdm.1, hdm.2]

/-- Frame lemma: on block-tile-multiple dimensions, v07 leaves every offset
outside the valid (n-addressed) positions of C untouched. -/
theorem v07_frame {R : Type} [CommRing R] (m n k lda ldb ldc : ℕ)
    (alpha beta : R) (A B : ℕ → ℕ → R) (st : CMem R)
    (hm128 : 128 ∣ m) (hn128 : 128 ∣ n)
    (hm32 : m + 127 < 4294967296) (hn32 : n + 127 < 4294967296)
    (o : ℕ) (ho : ∀ i j, i < m → j < n → o ≠ i * n + j) :
    (launch_gemm_kernel_v07_vectorized m n k alpha A lda B ldb beta st ldc).mem o
        = st.mem o ∧
    (launch_gemm_kernel_v07_vectorized m n k alpha A lda B ldb beta st ldc).touched o
        = st.touched o := by
  have hU := gemm_v07_vectorized_updates m n k lda ldb ldc
    (launch_grid_dim m n).1 (launch_grid_dim m n).2.1 alpha beta A B hm128 hn128
    (by rw [launch_grid_dim_fst m n hn32]) (by rw [launch_grid_dim_snd m n hm32])
  have hW : v07_total_W n (launch_grid_dim m n).1 (launch_grid_dim m n).2.1 o
      = false := by
    rcases hWt : v07_total_W n (launch_grid_dim m n).1 (launch_grid_dim m n).2.1 o
      with _ | _
    · rfl
    · obtain ⟨i, j, hi, hj, hoe⟩ :=
        (v07_total_W_iff m n hm128 hn128 hm32 hn32 o).mp hWt
      exact absurd hoe (ho i j hi hj)
  have h1 := (hU st o).1
  have h2 := (hU st o).2
  rw [hW] at h1 h2
  simp only [Bool.false_eq_true, if_false, Bool.false_or] at h1 h2
  exact ⟨h1, h2⟩

/-- Touched-set lemma: on block-tile-multiple dimensions with the launched
grid, the offsets v07 reads and writes in C are exactly the valid positions
under its `n`-based addressing. -/
theorem v07_touched_iff {R : Type} [CommRing R] (m n k lda ldb ldc : ℕ)
    (alpha beta : R) (A B : ℕ → ℕ → R) (st : CMem R)
    (hm128 : 128 ∣ m) (hn128 : 128 ∣ n)
    (hm32 : m + 127 < 4294967296) (hn32 : n + 127 < 4294967296) (o : ℕ) :
    (launch_gemm_kernel_v07_vectorized m n k alpha A lda B ldb beta st ldc).touched o
        = true ↔
      ((∃ i j, i < m ∧ j < n ∧ o = i * n + j) ∨ st.touched o = true) := by
  have hU := gemm_v07_vectorized_updates m n k lda ldb ldc
    (launch_grid_dim m n).1 (launch_grid_dim m n).2.1 alpha beta A B hm128 hn128
    (by rw [launch_grid_dim_fst m n hn32]) (by rw [launch_grid_dim_snd m n hm32])
  have h2 := (hU st o).2
  rw [show (launch_gemm_kernel_v07_vectorized m n k alpha A lda B ldb beta st ldc) =
    gemm_v07_vectorized m n k alpha A lda B ldb beta ldc
      (launch_grid_dim m n).1 (launch_grid_dim m n).2.1 st from rfl]
  rw [h2, Bool.or_eq_true]
  rw [← v07_total_W_iff m n hm128 hn128 hm32 hn32 o]

/-! ## A model of IEEE non-finite absorption

The kernels are C++ templates over the element type `T`; every explicit
instantiation (`float`, `double`, `__half`) is an IEEE type in which a NaN
operand is absorbed by addition and multiplication — in particular
`0 * NaN = NaN` and `x + NaN = NaN`.  `NanInt` models exactly this absorption
law over exact integers, so facts about NaN data flow through the kernels can
be stated and evaluated. -/

/-- An exact value or a NaN, with IEEE-style absorption. -/
inductive NanInt : Type
  | nan : NanInt
  | fin : ℤ → NanInt
deriving DecidableEq

/-- Addition: NaN absorbs. -/
def NanInt.addFn : NanInt → NanInt → NanInt
  | NanInt.fin a, NanInt.fin b => NanInt.fin (a + b)
  | _, _ => NanInt.nan

/-- Multiplication: NaN absorbs (also `0 * NaN = NaN`, as in IEEE). -/
def NanInt.mulFn : NanInt → NanInt → NanInt
  | NanInt.fin a, NanInt.fin b => NanInt.fin (a * b)
  | _, _ => NanInt.nan

instance : Mul NanInt := ⟨NanInt.mulFn⟩

instance : Add NanInt := ⟨NanInt.addFn⟩

instance : Zero NanInt := ⟨NanInt.fin 0⟩

instance : AddCommMonoid NanInt where
  add := NanInt.addFn
  zero := NanInt.fin 0
  nsmul := nsmulRec
  add_assoc a b c := by
    show NanInt.addFn (NanInt.addFn a b) c = NanInt.addFn a (NanInt.addFn b c)
    cases a <;> cases b <;> cases c <;> simp [NanInt.addFn] <;> ring
  zero_add a := by
    show NanInt.addFn (NanInt.fin 0) a = a
    cases a <;> simp [NanInt.addFn]
  add_zero a := by
    show NanInt.addFn a (NanInt.fin 0) = a
    cases a <;> simp [NanInt.addFn]
  add_comm a b := by
    show NanInt.addFn a b = NanInt.addFn b a
    cases a <;> cases b <;> simp [NanInt.addFn] <;> ring

/-- The set of flat offsets of the valid positions of an `m × n` row-major
matrix with leading dimension `ldc`. -/
def validCOffsets (m n ldc : ℕ) : Finset ℕ :=
  (Finset.range m).biUnion fun i => (Finset.range n).image fun j => i * ldc + j

theorem mem_validCOffsets (m n ldc o : ℕ) :
    o ∈ validCOffsets m n ldc ↔ ∃ i j, i < m ∧ j < n ∧ o = i * ldc + j := by
  simp only [validCOffsets, Finset.mem_biUnion, Finset.mem_image, Finset.mem_range]
  constructor
  · rintro ⟨i, hi, j, hj, rfl⟩
    exact ⟨i, j, hi, hj, rfl⟩
  · rintro ⟨i, j, hi, hj, rfl⟩
    exact ⟨i, hi, j, hj, rfl⟩

/-- An offset below `ldc` but at or beyond `n` is not a valid position. -/
theorem not_mem_validCOffsets (m n ldc o : ℕ) (h1 : o < ldc) (h2 : n ≤ o) :
    o ∉ validCOffsets m n ldc := by
  rw [mem_validCOffsets]
  rintro ⟨i, j, hi, hj, rfl⟩
  rcases Nat.eq_zero_or_pos i with rfl | hpos
  · simp at h1 h2
    omega
  · have hld : ldc ≤ i * ldc := Nat.le_mul_of_pos_left ldc hpos
    omega

/-! ## Monotonicity helpers for pinpointing single accesses

The v06 grid executes 256 threads times 16 vectorized stores per block, far
too many fold steps for definitional evaluation of a whole launch; facts
about single offsets at dimensions outside the disjointness machinery are
instead derived by locating one store that performs the access and
propagating it monotonically through the rest of the fold. -/

/-- A predicate preserved by every step of a fold is preserved by the fold. -/
theorem foldl_pred_mono {α β : Type} (P : α → Prop) (f : α → β → α)
    (hf : ∀ s b, P s → P (f s b)) :
    ∀ (l : List β) (st : α), P st → P (l.foldl f st) := by
  intro l
  induction l with
  | nil => intro st h; exact h
  | cons b tl ih => intro st h; exact ih (f st b) (hf st b h)

/-- A predicate established by iteration `t` of a fold over `List.range N`
and preserved by every step holds of the final state. -/
theorem foldl_range_pred {α : Type} (P : α → Prop) (f : α → ℕ → α)
    (hmono : ∀ s b, P s → P (f s b)) (t : ℕ) (hth : ∀ s, P (f s t)) :
    ∀ (N : ℕ), t < N → ∀ st : α, P ((List.range N).foldl f st) := by
  intro N
  induction N with
  | zero => intro h st; exact absurd h (Nat.not_lt_zero t)
  | succ N ih =>
    intro h st
    rw [List.range_succ, List.foldl_append]
    rcases Nat.lt_succ_iff_lt_or_eq.mp h with h2 | rfl
    · exact hmono _ _ (ih h2 st)
    · exact hth _

/-- Folding a step function that returns its state unchanged is the
identity. -/
theorem foldl_const {α β : Type} (st : α) (l : List β) :
    List.foldl (fun s _ => s) st l = st := by
  induction l generalizing st with
  | nil => rfl
  | cons b tl ih => exact ih st

/-- A vectorized store never clears a touched mark. -/
theorem v06_vec_store_touched_mono {R : Type} [Mul R] [Add R] {m n ldc nvu : ℕ}
    {alpha beta : R} {acc : ℕ → ℕ → ℕ → ℕ → R} {r c rR rC ty v : ℕ} {st : CMem R}
    {o : ℕ} (h : st.touched o = true) :
    (v06_vec_store m n ldc nvu alpha beta acc r c rR rC ty v st).touched o = true := by
  unfold v06_vec_store
  split
  · show (decide (r * ldc + c ≤ o ∧ o < r * ldc + c + nvu) || st.touched o) = true
    rw [h, Bool.or_true]
  · exact h

/-- A vectorized store whose line-484 guard passes marks every offset of its
`int4` transaction as touched. -/
theorem v06_vec_store_touched_hit {R : Type} [Mul R] [Add R] {m n ldc nvu : ℕ}
    {alpha beta : R} {acc : ℕ → ℕ → ℕ → ℕ → R} {r c rR rC ty v : ℕ} {o : ℕ}
    (hg : r < m ∧ c < n) (ho : r * ldc + c ≤ o ∧ o < r * ldc + c + nvu)
    (st : CMem R) :
    (v06_vec_store m n ldc nvu alpha beta acc r c rR rC ty v st).touched o = true := by
  unfold v06_vec_store
  rw [if_pos hg]
  show (decide (r * ldc + c ≤ o ∧ o < r * ldc + c + nvu) || st.touched o) = true
  rw [decide_eq_true ho, Bool.true_or]

/-- A whole v06 thread never clears a touched mark. -/
theorem gemm_v06_thread_touched_mono {R : Type} [Mul R] [Add R] [Zero R]
    (nvu m n k : ℕ) (alpha : R) (A B : ℕ → ℕ → R) (beta : R)
    (ldc byIdx bxIdx tIdx o : ℕ) (st : CMem R) (h : st.touched o = true) :
    (gemm_v06_thread nvu m n k alpha A B beta ldc byIdx bxIdx tIdx st).touched o
      = true := by
  rw [gemm_v06_thread_def]
  refine foldl_pred_mono (fun s : CMem R => s.touched o = true) _ ?_ _ _ h
  intro s1 ty h1
  refine foldl_pred_mono (fun s : CMem R => s.touched o = true) _ ?_ _ _ h1
  intro s2 v h2
  exact v06_vec_store_touched_mono h2

/-- If write-back iteration `(ty, vec)` of thread `tIdx` passes its bounds
guard and `o` lies in its store transaction, the thread leaves `o` touched,
whatever the incoming state. -/
theorem v06_thread_touched_hit {R : Type} [Mul R] [Add R] [Zero R]
    {nvu m n k : ℕ} {alpha : R} {A B : ℕ → ℕ → R} {beta : R}
    {ldc byIdx bxIdx tIdx o : ℕ} (ty vec : ℕ)
    (hty : ty < THREAD_TILE_SIZE_Y)
    (hvec : vec < VECTORIZED_THREAD_TILE_SIZE_X nvu)
    (hg : v06_C_row_idx byIdx (tIdx / 32 / NUM_WARPS_X)
        (tIdx % 32 / NUM_THREADS_PER_WARP_X) 0 ty < m ∧
      v06_C_col_idx nvu bxIdx (tIdx / 32 % NUM_WARPS_X)
        (tIdx % 32 % NUM_THREADS_PER_WARP_X) 0 vec < n)
    (ho : v06_C_row_idx byIdx (tIdx / 32 / NUM_WARPS_X)
        (tIdx % 32 / NUM_THREADS_PER_WARP_X) 0 ty * ldc +
      v06_C_col_idx nvu bxIdx (tIdx / 32 % NUM_WARPS_X)
        (tIdx % 32 % NUM_THREADS_PER_WARP_X) 0 vec ≤ o ∧
      o < v06_C_row_idx byIdx (tIdx / 32 / NUM_WARPS_X)
        (tIdx % 32 / NUM_THREADS_PER_WARP_X) 0 ty * ldc +
      v06_C_col_idx nvu bxIdx (tIdx / 32 % NUM_WARPS_X)
        (tIdx % 32 % NUM_THREADS_PER_WARP_X) 0 vec + nvu)
    (st : CMem R) :
    (gemm_v06_thread nvu m n k alpha A B beta ldc byIdx bxIdx tIdx st).touched o
      = true := by
  rw [gemm_v06_thread_def]
  refine foldl_range_pred (fun s : CMem R => s.touched o = true) _ ?_ ty ?_
    THREAD_TILE_SIZE_Y hty st
  · intro s b h
    exact foldl_pred_mono (fun s : CMem R => s.touched o = true) _
      (fun s2 v2 h2 => v06_vec_store_touched_mono h2) _ s h
  · intro s
    refine foldl_range_pred (fun s : CMem R => s.touched o = true) _ ?_ vec ?_
      (VECTORIZED_THREAD_TILE_SIZE_X nvu) hvec s
    · intro s2 v2 h2
      exact v06_vec_store_touched_mono h2
    · intro s3
      exact v06_vec_store_touched_hit hg ho s3

/-- With the 1×1 grid, one thread that touches `o` regardless of incoming
state makes the whole v06 block execution touch `o`. -/
theorem v06_grid11_touched {R : Type} [Mul R] [Add R] [Zero R]
    (nvu m n k : ℕ) (alpha : R) (A : ℕ → ℕ → R) (lda : ℕ) (B : ℕ → ℕ → R)
    (ldb : ℕ) (beta : R) (ldc tIdx o : ℕ) (ht : tIdx < NUM_THREADS_PER_BLOCK_V06)
    (hth : ∀ s : CMem R,
      (gemm_v06_thread nvu m n k alpha A B beta ldc 0 0 tIdx s).touched o = true)
    (st : CMem R) :
    (gemm_v06_vectorized nvu m n k alpha A lda B ldb beta ldc 1 1 st).touched o
      = true := by
  unfold gemm_v06_vectorized
  simp only [List.range_succ, List.range_zero, List.nil_append, List.foldl_cons,
    List.foldl_nil]
  refine foldl_range_pred (fun s : CMem R => s.touched o = true) _ ?_ tIdx hth
    NUM_THREADS_PER_BLOCK_V06 ht st
  intro s b h
  exact gemm_v06_thread_touched_mono nvu m n k alpha A B beta ldc 0 0 b o s h

/-- NaN absorbs multiplication on the right. -/
theorem NanInt.mulFn_nan (a : NanInt) : NanInt.mulFn a NanInt.nan = NanInt.nan := by
  cases a <;> rfl

/-- NaN absorbs addition on the right. -/
theorem NanInt.addFn_nan (a : NanInt) : NanInt.addFn a NanInt.nan = NanInt.nan := by
  cases a <;> rfl

/-- NaN is sticky under the v06 blend: once an offset of C holds NaN, any
further vectorized store leaves NaN there (`alpha*acc + beta*NaN = NaN`). -/
theorem v06_vec_store_mem_nan {m n ldc nvu : ℕ} {alpha beta : NanInt}
    {acc : ℕ → ℕ → ℕ → ℕ → NanInt} {r c rR rC ty v : ℕ} {st : CMem NanInt} {o : ℕ}
    (h : st.mem o = NanInt.nan) :
    (v06_vec_store m n ldc nvu alpha beta acc r c rR rC ty v st).mem o
      = NanInt.nan := by
  unfold v06_vec_store
  split
  · show (if r * ldc + c ≤ o ∧ o < r * ldc + c + nvu then
        alpha * acc rR rC ty (v * nvu + (o - (r * ldc + c))) + beta * st.mem o
      else st.mem o) = NanInt.nan
    split
    · rw [h]
      show NanInt.addFn
        (NanInt.mulFn alpha (acc rR rC ty (v * nvu + (o - (r * ldc + c)))))
        (NanInt.mulFn beta NanInt.nan) = NanInt.nan
      rw [NanInt.mulFn_nan, NanInt.addFn_nan]
    · exact h
  · exact h

/-- NaN stickiness through a whole v06 thread. -/
theorem gemm_v06_thread_mem_nan (nvu m n k : ℕ) (alpha : NanInt)
    (A B : ℕ → ℕ → NanInt) (beta : NanInt) (ldc byIdx bxIdx tIdx o : ℕ)
    (st : CMem NanInt) (h : st.mem o = NanInt.nan) :
    (gemm_v06_thread nvu m n k alpha A B beta ldc byIdx bxIdx tIdx st).mem o
      = NanInt.nan := by
  rw [gemm_v06_thread_def]
  refine foldl_pred_mono (fun s : CMem NanInt => s.mem o = NanInt.nan) _ ?_ _ _ h
  intro s1 ty h1
  refine foldl_pred_mono (fun s : CMem NanInt => s.mem o = NanInt.nan) _ ?_ _ _ h1
  intro s2 v h2
  exact v06_vec_store_mem_nan h2

/-- NaN stickiness through a whole 1×1-grid v06 launch. -/
theorem v06_grid11_mem_nan (nvu m n k : ℕ) (alpha : NanInt) (A : ℕ → ℕ → NanInt)
    (lda : ℕ) (B : ℕ → ℕ → NanInt) (ldb : ℕ) (beta : NanInt) (ldc o : ℕ)
    (st : CMem NanInt) (h : st.mem o = NanInt.nan) :
    (gemm_v06_vectorized nvu m n k alpha A lda B ldb beta ldc 1 1 st).mem o
      = NanInt.nan := by
  unfold gemm_v06_vectorized
  simp only [List.range_succ, List.range_zero, List.nil_append, List.foldl_cons,
    List.foldl_nil]
  refine foldl_pred_mono (fun s : CMem NanInt => s.mem o = NanInt.nan) _ ?_ _ _ h
  intro s t h2
  exact gemm_v06_thread_mem_nan nvu m n k alpha A B beta ldc 0 0 t o s h2

/-! ## The claims -/

set_option maxRecDepth 100000 in
/-- C1 counterexample: m = n = 2^32 - 1 is a valid `size_t` dimension pair,
but the launch computes grid dimensions through `static_cast<unsigned int>`
(lines 546-551): (2^32 - 1) + 127 wraps to 126, giving a 0×0 grid, so the
kernel never runs and C keeps its original contents instead of
`alpha*A*B + beta*C` (here k = 0, alpha = 0, beta = 2, C = 1: claimed 2,
actual 1). -/
theorem c1_counterexample :
    ¬ ((launch_gemm_kernel_v06_vectorized 4 4294967295 4294967295 0 (0 : ℤ)
          (fun _ _ => 1) 4294967295 (fun _ _ => 1) 4294967295 2
          ⟨fun _ => 1, fun _ => false⟩ 4294967295).mem (0 * 4294967295 + 0)
        = 0 * (∑ _p ∈ Finset.range 0, (1 : ℤ) * 1) + 2 * 1) := by
  decide

/-- C1 (amended): for every m, n, k, leading dimension ldc ≥ n and scalars,
provided the vector width `nvu = sizeof(int4)/sizeof(T)` divides n (so that
no `int4` store straddles a row end — otherwise stores clobber neighbouring
row starts, see the C2 theorem) and m, n stay below the 32-bit
grid-arithmetic limit, launching the register-blocked kernel v06 updates
every element C[i][j] to `alpha * (sum over p < k of A[i][p]*B[p][j]) +
beta * C_original[i][j]` exactly (exact arithmetic in place of "within the
tolerance of the numeric type"). -/
theorem c1_gemm_v06_correct {R : Type} [CommRing R] (nvu m n k lda ldb ldc : ℕ)
    (alpha beta : R) (A B : ℕ → ℕ → R) (st : CMem R)
    (hnvu8 : nvu ∣ 8) (hnvu0 : 0 < nvu) (hn : nvu ∣ n) (hldc : n ≤ ldc)
    (hm32 : m + 127 < 4294967296) (hn32 : n + 127 < 4294967296)
    (i j : ℕ) (hi : i < m) (hj : j < n) :
    (launch_gemm_kernel_v06_vectorized nvu m n k alpha A lda B ldb beta st ldc).mem
        (i * ldc + j)
      = alpha * (∑ p ∈ Finset.range k, A i p * B p j) + beta * st.mem (i * ldc + j) :=
  v06_mem_valid nvu m n k lda ldb ldc alpha beta A B st hnvu8 hnvu0 hn hldc
    hm32 hn32 i j hi hj

/-- C1 witness at nvu = 4, m = 4, n = 8, k = 3, ldc = 9, alpha = 2, beta = 5,
constant A = 3, B = 2, C = 7, element (1,2). -/
theorem c1_witness :
    (launch_gemm_kernel_v06_vectorized 4 4 8 3 (2 : ℤ) (fun _ _ => 3) 8
        (fun _ _ => 2) 8 5 ⟨fun _ => 7, fun _ => false⟩ 9).mem (1 * 9 + 2)
      = 2 * (∑ _p ∈ Finset.range 3, (3 : ℤ) * 2) + 5 * 7 := by
  rw [c1_gemm_v06_correct 4 4 8 3 8 8 9 2 5 (fun _ _ => 3) (fun _ _ => 2)
    ⟨fun _ => 7, fun _ => false⟩ (by norm_num) (by norm_num) (by norm_num)
    (by norm_num) (by norm_num) (by norm_num) 1 2 (by norm_num) (by norm_num)]

set_option maxRecDepth 100000 in
/-- C2: at the float configuration (nvu = 4) with m = 1, n = 17, ldc = 17,
thread 2 of the single block passes the line-484 bounds check at
(row 0, col 16), and its 4-wide `int4` transaction reads and writes offset
17, which is not a valid position of the 1×17 matrix: the kernel does write
outside [0,m)×[0,n), contradicting the boundary property. -/
theorem c2_oob_write :
    (launch_gemm_kernel_v06_vectorized 4 1 17 0 (1 : ℤ) (fun _ _ => 1) 17
        (fun _ _ => 1) 17 2 ⟨fun _ => 1, fun _ => false⟩ 17).touched 17 = true ∧
    17 ∉ validCOffsets 1 17 17 := by
  constructor
  · unfold launch_gemm_kernel_v06_vectorized
    rw [show (launch_grid_dim 1 17).1 = 1 from rfl,
      show (launch_grid_dim 1 17).2.1 = 1 from rfl]
    refine v06_grid11_touched 4 1 17 0 1 (fun _ _ => 1) 17 (fun _ _ => 1) 17 2 17
      2 17 (by decide) ?_ ⟨fun _ => 1, fun _ => false⟩
    intro s
    exact v06_thread_touched_hit 0 0 (by decide) (by decide) (by decide) (by decide) s
  · decide

set_option maxRecDepth 100000 in
/-- C3 counterexample: m = n = 16 satisfies the tile-multiple obligation the
spec states for v07 (its fragments are 16×16), yet on identical inputs
(k = 0, alpha = 3, beta = 2, C = 1, ldc = n = 16) the kernels disagree at
element (1,0): v06 (at the `__half` configuration nvu = 8) leaves
`beta*C = 2`, while v07's unguarded fragment covering block-tile columns
16-31 lands on offset 16 again under n-based addressing, leaving 4. -/
theorem c3_counterexample :
    ¬ ((launch_gemm_kernel_v07_vectorized 16 16 0 (3 : ℤ) (fun _ _ => 1) 16
          (fun _ _ => 1) 16 2 ⟨fun _ => 1, fun _ => false⟩ 16).mem (1 * 16 + 0)
        = (launch_gemm_kernel_v06_vectorized 8 16 16 0 (3 : ℤ) (fun _ _ => 1) 16
          (fun _ _ => 1) 16 2 ⟨fun _ => 1, fun _ => false⟩ 16).mem (1 * 16 + 0)) := by
  have h7 : (launch_gemm_kernel_v07_vectorized 16 16 0 (3 : ℤ) (fun _ _ => 1) 16
      (fun _ _ => 1) 16 2 ⟨fun _ => 1, fun _ => false⟩ 16).mem (1 * 16 + 0) = 4 := by
    decide
  have h6 : (launch_gemm_kernel_v06_vectorized 8 16 16 0 (3 : ℤ) (fun _ _ => 1) 16
      (fun _ _ => 1) 16 2 ⟨fun _ => 1, fun _ => false⟩ 16).mem (1 * 16 + 0) = 2 := by
    rw [v06_mem_valid 8 16 16 0 16 16 16 3 2 (fun _ _ => 1) (fun _ _ => 1)
      ⟨fun _ => 1, fun _ => false⟩ (by norm_num) (by norm_num) (by norm_num)
      (by norm_num) (by norm_num) (by norm_num) 1 0 (by norm_num) (by norm_num)]
    norm_num
  rw [h7, h6]
  decide

/-- C3 (amended): on dimensions where the v07 kernel's unguarded n-addressed
write-back is actually well defined — m and n multiples of the 128×128 block
tile (the fragment-size obligation the spec states is not sufficient), with
ldc = n and no 32-bit grid overflow — the two kernels leave identical values
at every valid element of C, exactly. -/
theorem c3_equiv {R : Type} [CommRing R] (nvu m n k lda ldb : ℕ)
    (alpha beta : R) (A B : ℕ → ℕ → R) (st : CMem R)
    (hnvu8 : nvu ∣ 8) (hnvu0 : 0 < nvu)
    (hm128 : 128 ∣ m) (hn128 : 128 ∣ n)
    (hm32 : m + 127 < 4294967296) (hn32 : n + 127 < 4294967296)
    (i j : ℕ) (hi : i < m) (hj : j < n) :
    (launch_gemm_kernel_v07_vectorized m n k alpha A lda B ldb beta st n).mem
        (i * n + j)
      = (launch_gemm_kernel_v06_vectorized nvu m n k alpha A lda B ldb beta st n).mem
          (i * n + j) := by
  rw [v07_mem_valid m n k lda ldb n alpha beta A B st hm128 hn128 hm32 hn32 i j hi hj]
  rw [v06_mem_valid nvu m n k lda ldb n alpha beta A B st hnvu8 hnvu0
    (dvd_trans hnvu8 (dvd_trans (by norm_num) hn128)) le_rfl hm32 hn32 i j hi hj]

/-- C3 witness at m = n = 128, k = 2, nvu = 8, element (0,0). -/
theorem c3_witness :
    (launch_gemm_kernel_v07_vectorized 128 128 2 (3 : ℤ) (fun _ _ => 1) 128
        (fun _ _ => 1) 128 2 ⟨fun _ => 1, fun _ => false⟩ 128).mem (0 * 128 + 0)
      = (launch_gemm_kernel_v06_vectorized 8 128 128 2 (3 : ℤ) (fun _ _ => 1) 128
        (fun _ _ => 1) 128 2 ⟨fun _ => 1, fun _ => false⟩ 128).mem (0 * 128 + 0) :=
by
  rw [c3_equiv 8 128 128 2 128 128 3 2 (fun _ _ => 1) (fun _ _ => 1)
    ⟨fun _ => 1, fun _ => false⟩ (by norm_num) (by norm_num) (by norm_num)
    (by norm_num) (by norm_num) (by norm_num) 0 0 (by norm_num) (by norm_num)]

set_option maxRecDepth 100000 in
/-- C4 counterexample: m = n = 16 are multiples of the 16×16 output fragment
size, yet the v07 kernel reads and writes offset 1024 (the first fragment of
the warp with linear index 4, whose block-tile rows start at 64), which is
not a valid position of the 16×16 matrix C: the caller obligation stated by
the spec is not sufficient for the unguarded write-back to stay in bounds. -/
theorem c4_counterexample :
    (16 : ℕ) % WMMA_TILE_SIZE_Y = 0 ∧ (16 : ℕ) % WMMA_TILE_SIZE_X = 0 ∧
    (launch_gemm_kernel_v07_vectorized 16 16 0 (1 : ℤ) (fun _ _ => 1) 16
        (fun _ _ => 1) 16 0 ⟨fun _ => 1, fun _ => false⟩ 16).touched 1024 = true ∧
    1024 ∉ validCOffsets 16 16 16 := by
  exact ⟨rfl, rfl, by decide, by decide⟩

/-- C4 (amended): if m and n are multiples of the 128×128 block tile (which
subsumes the fragment size; 16-multiples are not enough) and stay below the
32-bit grid-arithmetic limit, then every read and write of C performed by the
v07 kernel on its ceil(n/128) × ceil(m/128) grid lies at a valid position of
the m×n matrix under the kernel's n-based addressing. -/
theorem c4_inbounds {R : Type} [CommRing R] (m n k lda ldb ldc : ℕ)
    (alpha beta : R) (A B : ℕ → ℕ → R) (st : CMem R)
    (hm128 : 128 ∣ m) (hn128 : 128 ∣ n)
    (hm32 : m + 127 < 4294967296) (hn32 : n + 127 < 4294967296)
    (o : ℕ) (hst : st.touched o = false)
    (ht : (launch_gemm_kernel_v07_vectorized m n k alpha A lda B ldb beta st
        ldc).touched o = true) :
    o ∈ validCOffsets m n n := by
  rcases (v07_touched_iff m n k lda ldb ldc alpha beta A B st hm128 hn128
      hm32 hn32 o).mp ht with h | h
  · exact (mem_validCOffsets m n n o).mpr h
  · rw [hst] at h
    exact absurd h Bool.false_ne_true

set_option maxRecDepth 100000 in
/-- C4 witness at m = n = 128, k = 0, offset 0. -/
theorem c4_witness : (0 : ℕ) ∈ validCOffsets 128 128 128 :=
  c4_inbounds 128 128 0 128 128 128 (1 : ℤ) 0 (fun _ _ => 1) (fun _ _ => 1)
    ⟨fun _ => 1, fun _ => false⟩ (by norm_num) (by norm_num) (by norm_num)
    (by norm_num) 0 rfl (by decide)

set_option maxRecDepth 100000 in
/-- C5 counterexample: with m = n = 128 and ldc = 129, the v07 kernel reads
and writes offset 128 = 1*n + 0, which is not `i * ldc + j` for any valid
(i, j): the kernel addresses C through `n` (lines 162-187), not through
`ldc`. -/
theorem c5_counterexample :
    (launch_gemm_kernel_v07_vectorized 128 128 0 (1 : ℤ) (fun _ _ => 1) 128
        (fun _ _ => 1) 128 0 ⟨fun _ => 1, fun _ => false⟩ 129).touched 128 = true ∧
    128 ∉ validCOffsets 128 128 129 :=
  ⟨by decide, not_mem_validCOffsets 128 128 129 128 (by norm_num) (by norm_num)⟩

/-- C5 (amended): v06 addresses C row-major through `ldc` — on its
well-defined domain every offset it newly touches is `i * ldc + j` with
`i < m`, `j < n` — whereas v07 addresses C row-major through `n`: every
offset it newly touches is `i * n + j`, so v07 satisfies the claim only when
ldc = n. -/
theorem c5_addressing {R : Type} [CommRing R] (nvu m n k lda ldb ldc : ℕ)
    (alpha beta : R) (A B : ℕ → ℕ → R) (st : CMem R) (o : ℕ) :
    (nvu ∣ 8 → 0 < nvu → nvu ∣ n → n ≤ ldc →
      m + 127 < 4294967296 → n + 127 < 4294967296 → st.touched o = false →
      (launch_gemm_kernel_v06_vectorized nvu m n k alpha A lda B ldb beta st
          ldc).touched o = true →
      o ∈ validCOffsets m n ldc) ∧
    (128 ∣ m → 128 ∣ n → m + 127 < 4294967296 → n + 127 < 4294967296 →
      st.touched o = false →
      (launch_gemm_kernel_v07_vectorized m n k alpha A lda B ldb beta st
          ldc).touched o = true →
      o ∈ validCOffsets m n n) := by
  constructor
  · intro h1 h2 h3 h4 h5 h6 hst ht
    rcases (v06_touched_iff nvu m n k lda ldb ldc alpha beta A B st h1 h2 h3 h4
        h5 h6 o).mp ht with h | h
    · exact (mem_validCOffsets m n ldc o).mpr h
    · rw [hst] at h
      exact absurd h Bool.false_ne_true
  · intro h1 h2 h3 h4 hst ht
    rcases (v07_touched_iff m n k lda ldb ldc alpha beta A B st h1 h2 h3 h4 o).mp ht
      with h | h
    · exact (mem_validCOffsets m n n o).mpr h
    · rw [hst] at h
      exact absurd h Bool.false_ne_true

set_option maxRecDepth 100000 in
/-- C5 witness: v06 at nvu = 4, m = 1, n = ldc = 4 (offset 0 is touched by
thread 0 and is the valid position (0,0)); v07 at m = n = ldc = 128 (offset 0
is touched and is the valid position (0,0)). -/
theorem c5_witness :
    (0 : ℕ) ∈ validCOffsets 1 4 4 ∧ (0 : ℕ) ∈ validCOffsets 128 128 128 :=
  ⟨(c5_addressing 4 1 4 0 4 4 4 (1 : ℤ) 0 (fun _ _ => 1) (fun _ _ => 1)
      ⟨fun _ => 1, fun _ => false⟩ 0).1 (by norm_num) (by norm_num) (by norm_num)
      (by norm_num) (by norm_num) (by norm_num) rfl (by
        unfold launch_gemm_kernel_v06_vectorized
        rw [show (launch_grid_dim 1 4).1 = 1 from rfl,
          show (launch_grid_dim 1 4).2.1 = 1 from rfl]
        refine v06_grid11_touched 4 1 4 0 1 (fun _ _ => 1) 4 (fun _ _ => 1) 4 0 4
          0 0 (by decide) ?_ ⟨fun _ => 1, fun _ => false⟩
        intro s
        exact v06_thread_touched_hit 0 0 (by decide) (by decide) (by decide)
          (by decide) s),
   (c5_addressing 8 128 128 0 128 128 128 (1 : ℤ) 0 (fun _ _ => 1) (fun _ _ => 1)
      ⟨fun _ => 1, fun _ => false⟩ 0).2 (by norm_num) (by norm_num) (by norm_num)
      (by norm_num) rfl (by decide)⟩

set_option maxRecDepth 100000 in
/-- C6 counterexample: k = 0 with m = n = 16 is well inside the domain the
spec grants the matrix-unit kernel v07 (fragment-size multiples), the
reduction-tile count (0 + 15)/16 is 0 so no reduction iteration runs, yet the
output does not equal `beta*C_original`: offset 16 = 1*16 + 0 is written
twice by v07's unguarded n-addressed write-back, leaving
`beta*(beta*C[1][0]) = 4` instead of `beta*C[1][0] = 2`. -/
theorem c6_counterexample :
    num_thread_block_tiles 0 = 0 ∧
    ¬ ((launch_gemm_kernel_v07_vectorized 16 16 0 (3 : ℤ) (fun _ _ => 1) 16
          (fun _ _ => 1) 16 2 ⟨fun _ => 1, fun _ => false⟩ 16).mem (1 * 16 + 0)
        = 2 * 1) := by
  exact ⟨rfl, by decide⟩

/-- C6 (amended): k = 0 gives zero reduction-tile iterations and a pure
beta-scaling pass at every valid element, and m = 0 or n = 0 launches an
empty grid leaving C untouched — for v06 on its well-defined domain (vector
width divides n, 32-bit grid bound) and for v07 on block-tile multiples. -/
theorem c6_degenerate {R : Type} [CommRing R] (nvu m n k lda ldb ldc : ℕ)
    (alpha beta : R) (A B : ℕ → ℕ → R) (st : CMem R) :
    num_thread_block_tiles 0 = 0 ∧
    (k = 0 → nvu ∣ 8 → 0 < nvu → nvu ∣ n → n ≤ ldc →
      m + 127 < 4294967296 → n + 127 < 4294967296 → ∀ i j, i < m → j < n →
      (launch_gemm_kernel_v06_vectorized nvu m n k alpha A lda B ldb beta st
          ldc).mem (i * ldc + j) = beta * st.mem (i * ldc + j)) ∧
    (k = 0 → 128 ∣ m → 128 ∣ n → m + 127 < 4294967296 → n + 127 < 4294967296 →
      ∀ i j, i < m → j < n →
      (launch_gemm_kernel_v07_vectorized m n k alpha A lda B ldb beta st
          ldc).mem (i * n + j) = beta * st.mem (i * n + j)) ∧
    (m = 0 → launch_gemm_kernel_v06_vectorized nvu m n k alpha A lda B ldb beta st
        ldc = st) ∧
    (n = 0 → launch_gemm_kernel_v06_vectorized nvu m n k alpha A lda B ldb beta st
        ldc = st) ∧
    (m = 0 → launch_gemm_kernel_v07_vectorized m n k alpha A lda B ldb beta st
        ldc = st) ∧
    (n = 0 → launch_gemm_kernel_v07_vectorized m n k alpha A lda B ldb beta st
        ldc = st) := by
  refine ⟨rfl, ?_, ?_, ?_, ?_, ?_, ?_⟩
  · rintro rfl h1 h2 h3 h4 h5 h6 i j hi hj
    rw [v06_mem_valid nvu m n 0 lda ldb ldc alpha beta A B st h1 h2 h3 h4 h5 h6
      i j hi hj]
    simp
  · rintro rfl h1 h2 h3 h4 i j hi hj
    rw [v07_mem_valid m n 0 lda ldb ldc alpha beta A B st h1 h2 h3 h4 i j hi hj]
    simp
  · rintro rfl
    rfl
  · rintro rfl
    show List.foldl (fun s _ => s) st (List.range ((launch_grid_dim m 0).2.1)) = st
    exact foldl_const st _
  · rintro rfl
    rfl
  · rintro rfl
    show List.foldl (fun s _ => s) st (List.range ((launch_grid_dim m 0).2.1)) = st
    exact foldl_const st _

/-- C6 witness: the k = 0 pure beta-scaling pass of v06 at nvu = 4, m = 1,
n = ldc = 4, alpha = 5, beta = 2, C = 3, element (0,0). -/
theorem c6_witness :
    (launch_gemm_kernel_v06_vectorized 4 1 4 0 (5 : ℤ) (fun _ _ => 9) 4
        (fun _ _ => 9) 4 2 ⟨fun _ => 3, fun _ => false⟩ 4).mem (0 * 4 + 0)
      = 2 * 3 := by
  rw [(c6_degenerate 4 1 4 0 4 4 4 (5 : ℤ) 2 (fun _ _ => 9) (fun _ _ => 9)
    ⟨fun _ => 3, fun _ => false⟩).2.1 rfl (by norm_num) (by norm_num) (by norm_num)
    (by norm_num) (by norm_num) (by norm_num) 0 0 (by norm_num) (by norm_num)]

set_option maxRecDepth 100000 in
/-- C7 counterexample: v07 at m = n = 16 (fragment multiples), k = 16,
alpha = 1, beta = 0, A = B = 1: (A·B)[1][0] = 16, but element (1,0) of C is
finally overwritten by the straddling fragment of block-tile columns 16-31,
whose accumulator sums the zero-padded staging columns, leaving 0 — the
result is not A·B even with alpha = 1, beta = 0. -/
theorem c7_counterexample :
    ¬ ((launch_gemm_kernel_v07_vectorized 16 16 16 (1 : ℤ) (fun _ _ => 1) 16
          (fun _ _ => 1) 16 0 ⟨fun _ => 7, fun _ => false⟩ 16).mem (1 * 16 + 0)
        = ∑ _p ∈ Finset.range 16, (1 : ℤ) * 1) := by
  decide

/-- C7 (amended): on each kernel's well-defined domain, alpha = 1 and
beta = 0 yield exactly A·B: every valid element becomes the k-term dot
product, with no occurrence of C's prior contents in the value (the
right-hand side does not mention the initial state). -/
theorem c7_alpha_one_beta_zero {R : Type} [CommRing R] (nvu m n k lda ldb ldc : ℕ)
    (A B : ℕ → ℕ → R) (st : CMem R)
    (hnvu8 : nvu ∣ 8) (hnvu0 : 0 < nvu) (hn : nvu ∣ n) (hldc : n ≤ ldc)
    (hm32 : m + 127 < 4294967296) (hn32 : n + 127 < 4294967296)
    (i j : ℕ) (hi : i < m) (hj : j < n) :
    (launch_gemm_kernel_v06_vectorized nvu m n k 1 A lda B ldb 0 st ldc).mem
        (i * ldc + j) = ∑ p ∈ Finset.range k, A i p * B p j ∧
    (128 ∣ m → 128 ∣ n →
      (launch_gemm_kernel_v07_vectorized m n k 1 A lda B ldb 0 st ldc).mem
          (i * n + j) = ∑ p ∈ Finset.range k, A i p * B p j) := by
  constructor
  · rw [v06_mem_valid nvu m n k lda ldb ldc 1 0 A B st hnvu8 hnvu0 hn hldc
      hm32 hn32 i j hi hj]
    ring
  · intro hm128 hn128
    rw [v07_mem_valid m n k lda ldb ldc 1 0 A B st hm128 hn128 hm32 hn32 i j hi hj]
    ring

/-- C7 witness: v06 at nvu = 4, m = 1, n = ldc = 4, k = 1, A = 3, B = 2,
C = 7, element (0,0): the result is the dot product, untouched by C = 7. -/
theorem c7_witness :
    (launch_gemm_kernel_v06_vectorized 4 1 4 1 (1 : ℤ) (fun _ _ => 3) 4
        (fun _ _ => 2) 4 0 ⟨fun _ => 7, fun _ => false⟩ 4).mem (0 * 4 + 0)
      = ∑ _p ∈ Finset.range 1, (3 : ℤ) * 2 := by
  rw [(c7_alpha_one_beta_zero 4 1 4 1 4 4 4 (fun _ _ => 3) (fun _ _ => 2)
    ⟨fun _ => 7, fun _ => false⟩ (by norm_num) (by norm_num) (by norm_num)
    (by norm_num) (by norm_num) (by norm_num) 0 0 (by norm_num) (by norm_num)).1]

set_option maxRecDepth 100000 in
/-- C8 counterexample: v07 at m = n = 16 (fragment multiples), k = 0,
alpha = 0, beta = 2, C = 1: the claimed pure scale of element (1,0) is
`beta*C[1][0] = 2`, but offset 16 is written twice by the unguarded
n-addressed write-back, leaving 4. -/
theorem c8_counterexample :
    ¬ ((launch_gemm_kernel_v07_vectorized 16 16 0 (0 : ℤ) (fun _ _ => 1) 16
          (fun _ _ => 1) 16 2 ⟨fun _ => 1, fun _ => false⟩ 16).mem (1 * 16 + 0)
        = 2 * 1) := by
  decide

/-- C8 (amended): on each kernel's well-defined domain, alpha = 0 yields
`beta*C_original` at every valid element, for all A and B (the right-hand
side does not mention A or B; over the exact model there are no non-finite
values — NaN inputs are treated separately by the C10 theorem). -/
theorem c8_alpha_zero {R : Type} [CommRing R] (nvu m n k lda ldb ldc : ℕ)
    (beta : R) (A B : ℕ → ℕ → R) (st : CMem R)
    (hnvu8 : nvu ∣ 8) (hnvu0 : 0 < nvu) (hn : nvu ∣ n) (hldc : n ≤ ldc)
    (hm32 : m + 127 < 4294967296) (hn32 : n + 127 < 4294967296)
    (i j : ℕ) (hi : i < m) (hj : j < n) :
    (launch_gemm_kernel_v06_vectorized nvu m n k 0 A lda B ldb beta st ldc).mem
        (i * ldc + j) = beta * st.mem (i * ldc + j) ∧
    (128 ∣ m → 128 ∣ n →
      (launch_gemm_kernel_v07_vectorized m n k 0 A lda B ldb beta st ldc).mem
          (i * n + j) = beta * st.mem (i * n + j)) := by
  constructor
  · rw [v06_mem_valid nvu m n k lda ldb ldc 0 beta A B st hnvu8 hnvu0 hn hldc
      hm32 hn32 i j hi hj]
    ring
  · intro hm128 hn128
    rw [v07_mem_valid m n k lda ldb ldc 0 beta A B st hm128 hn128 hm32 hn32 i j hi hj]
    ring

/-- C8 witness: v06 at nvu = 4, m = 1, n = ldc = 4, k = 2, alpha = 0,
beta = 3, A = 5, B = 6, C = 2, element (0,0): the result is 3*2, with no
contribution of A·B. -/
theorem c8_witness :
    (launch_gemm_kernel_v06_vectorized 4 1 4 2 (0 : ℤ) (fun _ _ => 5) 4
        (fun _ _ => 6) 4 3 ⟨fun _ => 2, fun _ => false⟩ 4).mem (0 * 4 + 0)
      = 3 * 2 := by
  rw [(c8_alpha_zero 4 1 4 2 4 4 4 (3 : ℤ) (fun _ _ => 5) (fun _ _ => 6)
    ⟨fun _ => 2, fun _ => false⟩ (by norm_num) (by norm_num) (by norm_num)
    (by norm_num) (by norm_num) (by norm_num) 0 0 (by norm_num) (by norm_num)).1]

/-- C9 counterexample: at m = n = 2^32 - 1 (a valid `size_t` dimension pair)
the `static_cast<unsigned int>` in the launch functions wraps
(2^32 - 1) + 127 to 126, so the computed grid is 0×0 instead of the claimed
ceil(n/128) × ceil(m/128) = 33554432 × 33554432. -/
theorem c9_counterexample :
    ¬ (launch_grid_dim 4294967295 4294967295
        = ((4294967295 + 128 - 1) / 128, (4294967295 + 128 - 1) / 128, 1)) := by
  decide

/-- C9 (amended): for m and n below the 32-bit wrap limit (m + 127 < 2^32 and
n + 127 < 2^32), both launch functions compute the grid as exactly
ceil(n/128) × ceil(m/128) × 1, and the per-block worker count is the fixed
256 = (128/32)·(128/64)·(32/8)·(64/8) threads for v06 and
32·(128/32)·(128/64) threads for v07, independent of m, n, k. -/
theorem c9_grid (m n : ℕ) (hm32 : m + 127 < 4294967296)
    (hn32 : n + 127 < 4294967296) :
    launch_grid_dim m n = ((n + 128 - 1) / 128, (m + 128 - 1) / 128, 1) ∧
    v06_block_dim = (256, 1, 1) ∧ v07_block_dim = (256, 1, 1) := by
  refine ⟨?_, rfl, rfl⟩
  have h1 := launch_grid_dim_fst m n hn32
  have h2 := launch_grid_dim_snd m n hm32
  have e1 : n + 128 - 1 = n + 127 := by omega
  have e2 : m + 128 - 1 = m + 127 := by omega
  rw [e1, e2]
  have h3 : launch_grid_dim m n
      = ((launch_grid_dim m n).1, (launch_grid_dim m n).2.1,
        (launch_grid_dim m n).2.2) := rfl
  rw [h3, h1, h2]
  rfl

/-- C9 witness at m = n = 300: grid 3×3×1 and 256 workers per block. -/
theorem c9_witness :
    launch_grid_dim 300 300 = ((300 + 128 - 1) / 128, (300 + 128 - 1) / 128, 1) ∧
    v06_block_dim = (256, 1, 1) ∧ v07_block_dim = (256, 1, 1) :=
  c9_grid 300 300 (by norm_num) (by norm_num)

set_option maxRecDepth 100000 in
/-- C10: both kernels load the prior contents of C unconditionally during
write-back and always evaluate the blend `alpha*acc + beta*C_old`, so a
non-finite prior value propagates into the result even when beta = 0: over
the absorption model `NanInt`, with beta = `fin 0` and C holding NaN, both
kernels leave NaN at element (0,0) (v06 at nvu = 4, m = 1, n = ldc = 4;
v07 at m = n = ldc = 128; k = 0 in both). -/
theorem c10_nan_blend :
    (launch_gemm_kernel_v06_vectorized 4 1 4 0 (NanInt.fin 1)
        (fun _ _ => NanInt.fin 1) 4 (fun _ _ => NanInt.fin 1) 4 (NanInt.fin 0)
        ⟨fun _ => NanInt.nan, fun _ => false⟩ 4).mem 0 = NanInt.nan ∧
    (launch_gemm_kernel_v07_vectorized 128 128 0 (NanInt.fin 1)
        (fun _ _ => NanInt.fin 1) 128 (fun _ _ => NanInt.fin 1) 128 (NanInt.fin 0)
        ⟨fun _ => NanInt.nan, fun _ => false⟩ 128).mem 0 = NanInt.nan := by
  constructor
  · unfold launch_gemm_kernel_v06_vectorized
    rw [show (launch_grid_dim 1 4).1 = 1 from rfl,
      show (launch_grid_dim 1 4).2.1 = 1 from rfl]
    exact v06_grid11_mem_nan 4 1 4 0 (NanInt.fin 1) (fun _ _ => NanInt.fin 1) 4
      (fun _ _ => NanInt.fin 1) 4 (NanInt.fin 0) 4 0
      ⟨fun _ => NanInt.nan, fun _ => false⟩ rfl
  · decide
